import Mathlib

/-!
# Verification of the MCP memory-system store engine

Shallow embedding of the Go memory-store engine (`memory_store.go`,
`mcp_server.go`) of `mcp-memory-system`.

Modelling conventions:
* Go `map` values are association lists (`List (κ × β)`); the list order stands
  for one concrete iteration order of the Go map.  `mapLookup`/`mapSet`/
  `mapErase`/`mapAdjust` mirror map read, assignment, `delete`, and in-place
  update of an existing entry.
* `float32` quantities (`Importance`, `Decay`, relation `Strength`, embedding
  components, similarity scores) are modelled as `ℚ`; `time.Time` values as
  `ℤ` seconds.  The hour-bucket key `Format("2006-01-02-15")`, whose lexical
  order coincides with chronological order, is modelled as the hour number
  (floor division of the timestamp by 3600).
* Go indexes that hold `*Memory` pointers aliasing the record table are
  modelled as holding record identifiers which are resolved through the table
  on read (type index, keyword index, embedding index — whose Go reader itself
  resolves via `ms.memories[id]`); the time index is modelled as holding the
  record values directly, because its reader (`findTemporal`) returns bucket
  members without consulting the table, which is observable after a removal.
-/

namespace MCPMemory

/- Core `Rat` arithmetic is `@[irreducible]`, which blocks `decide`/`rfl`
evaluation of concrete store states; restore default reducibility (the
operations are ordinary computable functions). -/
attribute [local semireducible] Rat.add Rat.mul Rat.sub Rat.inv

/-! ## Association-map helpers (model of Go maps) -/

/-- Map read `m[k]`, returning the first binding of `k`. -/
def mapLookup {κ β : Type} [DecidableEq κ] (k : κ) : List (κ × β) → Option β
  | [] => none
  | (k', v) :: rest => if k' = k then some v else mapLookup k rest

/-- Map assignment `m[k] = v`: replace the first binding of `k`, or append a
fresh binding when `k` is absent. -/
def mapSet {κ β : Type} [DecidableEq κ] (k : κ) (v : β) : List (κ × β) → List (κ × β)
  | [] => [(k, v)]
  | (k', v') :: rest => if k' = k then (k, v) :: rest else (k', v') :: mapSet k v rest

/-- Map deletion `delete(m, k)`: drop every binding of `k` (under the
no-duplicate-keys invariant of a real map this is the single binding). -/
def mapErase {κ β : Type} [DecidableEq κ] (k : κ) (l : List (κ × β)) : List (κ × β) :=
  l.filter (fun p => p.1 ≠ k)

/-- In-place update of an existing entry (no-op when the key is absent). -/
def mapAdjust {κ β : Type} [DecidableEq κ] (k : κ) (f : β → β) : List (κ × β) → List (κ × β)
  | [] => []
  | (k', v) :: rest => if k' = k then (k, f v) :: rest else (k', v) :: mapAdjust k f rest

/-- The keys of an association map. -/
def mapKeys {κ β : Type} (l : List (κ × β)) : List κ := l.map Prod.fst

theorem mapLookup_mapSet_self {κ β : Type} [DecidableEq κ] (k : κ) (v : β)
    (l : List (κ × β)) : mapLookup k (mapSet k v l) = some v := by
  induction l with
  | nil => simp [mapSet, mapLookup]
  | cons p rest ih =>
    obtain ⟨k', v'⟩ := p
    by_cases h : k' = k
    · simp [mapSet, h, mapLookup]
    · simp [mapSet, h, mapLookup, ih]

theorem mapLookup_mapSet_ne {κ β : Type} [DecidableEq κ] {k k' : κ} (v : β)
    (l : List (κ × β)) (h : k ≠ k') : mapLookup k' (mapSet k v l) = mapLookup k' l := by
  induction l with
  | nil => simp [mapSet, mapLookup, h]
  | cons p rest ih =>
    obtain ⟨k₀, v₀⟩ := p
    by_cases h₀ : k₀ = k
    · subst h₀
      simp [mapSet, mapLookup, h]
    · by_cases h₁ : k₀ = k'
      · subst h₁
        simp [mapSet, h₀, mapLookup]
      · simp [mapSet, h₀, mapLookup, h₁, ih]

theorem mapLookup_mapErase_self {κ β : Type} [DecidableEq κ] (k : κ)
    (l : List (κ × β)) : mapLookup k (mapErase k l) = none := by
  induction l with
  | nil => simp [mapErase, mapLookup]
  | cons p rest ih =>
    obtain ⟨k', v'⟩ := p
    by_cases h : k' = k
    · simpa [mapErase, h] using ih
    · simpa [mapErase, h, mapLookup] using ih

theorem mapLookup_mapErase_ne {κ β : Type} [DecidableEq κ] {k k' : κ}
    (l : List (κ × β)) (h : k ≠ k') : mapLookup k' (mapErase k l) = mapLookup k' l := by
  induction l with
  | nil => simp [mapErase, mapLookup]
  | cons p rest ih =>
    obtain ⟨k₀, v₀⟩ := p
    by_cases h₀ : k₀ = k
    · subst h₀
      simpa [mapErase, mapLookup, h] using ih
    · by_cases h₁ : k₀ = k'
      · subst h₁
        simp [mapErase, mapLookup, h₀]
      · simpa [mapErase, mapLookup, h₀, h₁] using ih

theorem mapLookup_mapAdjust_self {κ β : Type} [DecidableEq κ] (k : κ) (f : β → β)
    (l : List (κ × β)) :
    mapLookup k (mapAdjust k f l) = (mapLookup k l).map f := by
  induction l with
  | nil => simp [mapAdjust, mapLookup]
  | cons p rest ih =>
    obtain ⟨k', v'⟩ := p
    by_cases h : k' = k
    · simp [mapAdjust, h, mapLookup]
    · simp [mapAdjust, h, mapLookup, ih]

theorem mapLookup_mapAdjust_ne {κ β : Type} [DecidableEq κ] {k k' : κ} (f : β → β)
    (l : List (κ × β)) (h : k ≠ k') :
    mapLookup k' (mapAdjust k f l) = mapLookup k' l := by
  induction l with
  | nil => simp [mapAdjust, mapLookup]
  | cons p rest ih =>
    obtain ⟨k₀, v₀⟩ := p
    by_cases h₀ : k₀ = k
    · subst h₀
      simp [mapAdjust, mapLookup, h, ih]
    · by_cases h₁ : k₀ = k'
      · subst h₁
        simp [mapAdjust, h₀, mapLookup]
      · simp [mapAdjust, h₀, mapLookup, h₁, ih]

/-! ## Data model (`memory_store.go` lines 14–46) -/

/-- Go `type MemoryType string`: the cognitive type is a string. -/
abbrev MemoryType := String

def ShortTerm : MemoryType := "short_term"
def LongTerm : MemoryType := "long_term"
def Episodic : MemoryType := "episodic"
def Semantic : MemoryType := "semantic"
def Procedural : MemoryType := "procedural"

/-- The `Memory` record.  `Metadata` (an opaque bag never inspected by the
engine) and the advisory `Relations` string list are omitted; `float32` fields
are `ℚ`, times are `ℤ` seconds. -/
structure Memory where
  id : String
  type : MemoryType
  content : String
  embedding : Option (List ℚ)
  timestamp : ℤ
  lastAccess : ℤ
  accessCount : ℤ
  importance : ℚ
  decay : ℚ
deriving DecidableEq, Repr

/-- `MemoryRelation`: directed, typed, weighted edge.  Go field names
`From`/`To`/`Type`/`Strength` are renamed (`from` and `Type` are reserved). -/
structure MemoryRelation where
  fromId : String
  toId : String
  rtype : String
  strength : ℚ
deriving DecidableEq, Repr

/-- The `MemoryStore` state: record table, the four indexes, and the relation
graph.  Locks, the shutdown channel and the background tickers are concurrency
plumbing with no algorithmic content and are not part of the state. -/
structure MemoryStore where
  memories : List (String × Memory)
  typeIndex : List (MemoryType × List String)
  timeBuckets : List (ℤ × List Memory)
  embeddings : List (String × List ℚ)
  keywordIndex : List (String × List String)
  relations : List (String × List MemoryRelation)
  maxMemories : ℤ
deriving DecidableEq, Repr

/-- `NewMemoryStore`: empty table, the five type-index sets pre-created. -/
def NewMemoryStore (maxMemories : ℤ) : MemoryStore where
  memories := []
  typeIndex := [(ShortTerm, []), (LongTerm, []), (Episodic, []), (Semantic, []), (Procedural, [])]
  timeBuckets := []
  embeddings := []
  keywordIndex := []
  relations := []
  maxMemories := maxMemories

/-! ## Tokenization and the keyword index (`memory_store.go` 543–588) -/

/-- The character class kept by `extractWords`: `strings.FieldsFunc` splits on
every rune for which the callback is true, i.e. every rune that is not an
ASCII letter or digit. -/
def isWordChar (c : Char) : Bool :=
  (('a' ≤ c && c ≤ 'z') || ('A' ≤ c && c ≤ 'Z') || ('0' ≤ c && c ≤ '9'))

/-- Worker for `extractWords`: accumulate the current run of word characters
(reversed) and emit it at each separator. -/
def wordsAux : List Char → List Char → List String
  | [], cur => if cur = [] then [] else [String.mk cur.reverse]
  | c :: cs, cur =>
    if isWordChar c then wordsAux cs (c :: cur)
    else if cur = [] then wordsAux cs []
    else String.mk cur.reverse :: wordsAux cs []

/-- `extractWords`: split text into maximal runs of ASCII letters/digits
(`strings.FieldsFunc` with the complement of `isWordChar`). -/
def extractWords (text : String) : List String := wordsAux text.toList []

/-- `strings.ToLower`, restricted to the ASCII range (`Char.toLower` lowers
exactly `A`–`Z`; the tokens the index stores are ASCII runs, where the two
agree). -/
def toLowerStr (s : String) : String := String.mk (s.toList.map Char.toLower)

/-- One step of `addToKeywordIndex`: index the record id under the lowercase
form of a content token of length ≥ 3 (`len(word) >= 3` is a byte length in
Go; tokens are ASCII runs, so it equals the character count).  The inner Go
map keyed by record id is modelled as a duplicate-free id list. -/
def kwAddStep (id : String) (idx : List (String × List String)) (word : String) :
    List (String × List String) :=
  if 3 ≤ word.length then
    match mapLookup (toLowerStr word) idx with
    | some ids => mapSet (toLowerStr word) (if id ∈ ids then ids else ids ++ [id]) idx
    | none => mapSet (toLowerStr word) [id] idx
  else idx

/-- `addToKeywordIndex`: index the record under every eligible content
token. -/
def addToKeywordIndex (ms : MemoryStore) (memory : Memory) : MemoryStore :=
  { ms with keywordIndex := (extractWords memory.content).foldl (kwAddStep memory.id) ms.keywordIndex }

/-- One step of `removeFromKeywordIndex`: drop the id from the token's entry
and delete the entry entirely once its id-set becomes empty. -/
def kwRemoveStep (id : String) (idx : List (String × List String)) (word : String) :
    List (String × List String) :=
  if 3 ≤ word.length then
    match mapLookup (toLowerStr word) idx with
    | some ids =>
      if ids.filter (fun i => i ≠ id) = [] then mapErase (toLowerStr word) idx
      else mapSet (toLowerStr word) (ids.filter (fun i => i ≠ id)) idx
    | none => idx
  else idx

/-- `removeFromKeywordIndex`: reverse of `addToKeywordIndex`. -/
def removeFromKeywordIndex (ms : MemoryStore) (memory : Memory) : MemoryStore :=
  { ms with keywordIndex := (extractWords memory.content).foldl (kwRemoveStep memory.id) ms.keywordIndex }

/-- Add an id to an id list if absent (model of assignment into a Go map used
as a set). -/
def insertIdOnce (acc : List String) (id : String) : List String :=
  if id ∈ acc then acc else acc ++ [id]

/-- One keyword of `findByKeywords`: lower the keyword, look it up exactly in
the inverted index, and add the entry's ids to the accumulated set (the Go
`resultMap` keyed by id deduplicates); an absent keyword contributes
nothing. -/
def kwCollectStep (ms : MemoryStore) (acc : List String) (keyword : String) : List String :=
  match mapLookup (toLowerStr keyword) ms.keywordIndex with
  | some entryIds => entryIds.foldl insertIdOnce acc
  | none => acc

/-- `findByKeywords` (`mcp_server.go` 773–796): union of the id-sets of all
query keywords, resolved through the table (the Go index holds `*Memory`
pointers aliasing the table). -/
def findByKeywords (ms : MemoryStore) (keywords : List String) : List Memory :=
  let ids := keywords.foldl (kwCollectStep ms) []
  ids.filterMap (fun id => mapLookup id ms.memories)

/-! ## Time index (`mcp_server.go` 738–759, `memory_store.go` 618–631) -/

/-- The hour bucket of a timestamp: `Format("2006-01-02-15")` truncates to the
hour and its lexical order is chronological order, so the key is modelled as
the hour number. -/
def hourBucket (ts : ℤ) : ℤ := Int.fdiv ts 3600

/-- `addToTimeIndex`: append the record to its creation-hour bucket. -/
def addToTimeIndex (ms : MemoryStore) (memory : Memory) : MemoryStore :=
  let bucket := hourBucket memory.timestamp
  { ms with timeBuckets :=
      mapSet bucket ((mapLookup bucket ms.timeBuckets).getD [] ++ [memory]) ms.timeBuckets }

/-- `cleanupTimeBuckets`: delete every bucket whose key is lexically below the
key of `now - 7 days` (whole buckets only; no per-record removal). -/
def cleanupTimeBuckets (ms : MemoryStore) (now : ℤ) : MemoryStore :=
  let cutoff := now - 24 * 3600 * 7
  { ms with timeBuckets := ms.timeBuckets.filter (fun b => ¬ b.1 < hourBucket cutoff) }

/-- `findTemporal` (`mcp_server.go` 745–759): scan every bucket and keep the
members with `Timestamp.After(start) && Timestamp.Before(end)` — both bounds
strict. -/
def findTemporal (ms : MemoryStore) (start endT : ℤ) : List Memory :=
  ms.timeBuckets.foldl (fun results b =>
    results ++ b.2.filter (fun mem => decide (start < mem.timestamp ∧ mem.timestamp < endT))) []

/-! ## Type index reads (`mcp_server.go` 761–771) -/

/-- `findByType`: enumerate the id set of the requested type, resolved through
the table (the Go index value aliases the table record). -/
def findByType (ms : MemoryStore) (memType : MemoryType) : List Memory :=
  match mapLookup memType ms.typeIndex with
  | some ids => ids.filterMap (fun id => mapLookup id ms.memories)
  | none => []

/-! ## Vectors and similarity search (`memory_store.go` 248–280, 590–616) -/

/-- `dotProduct`: pairwise product sum (the Go loop indexes `a`; callers pass
equal-length vectors). -/
def dotProduct (a b : List ℚ) : ℚ := (List.zipWith (fun x y => x * y) a b).sum

/-- Squared Euclidean norm. -/
def normSq (v : List ℚ) : ℚ := (v.map (fun x => x * x)).sum

/-- Exact rational square root, when it exists. -/
def ratSqrt (q : ℚ) : Option ℚ :=
  if q < 0 then none
  else
    let sn := Nat.sqrt q.num.toNat
    let sd := Nat.sqrt q.den
    if (sn * sn : ℤ) = q.num ∧ sd * sd = q.den then some ((sn : ℚ) / (sd : ℚ)) else none

/-- `normalizeVector` divides by the Euclidean norm (a `float32` square root
in the source) and returns a zero-norm vector unchanged.  Over `ℚ` the square
root is exactly representable only when the squared norm is a rational square;
on other vectors the model keeps the vector unchanged — no theorem below
depends on those values (the similarity-search claims hold for arbitrary index
contents, and all concrete instances use vectors of rational norm). -/
def normalizeVector (v : List ℚ) : List ℚ :=
  match ratSqrt (normSq v) with
  | some norm => if norm = 0 then v else v.map (fun x => x / norm)
  | none => v

/-- Push onto the bounded min-oriented priority queue.  `container/heap` is Go
library code; it is embedded by its priority-queue contract: the model keeps
the queue as a list sorted ascending by score, so the Go heap root `(*h)[0]`
(the minimum) is the head, `heap.Pop` drops the head, and `heap.Push` inserts
in order. -/
def heapPush (h : List (Memory × ℚ)) (x : Memory × ℚ) : List (Memory × ℚ) :=
  match h with
  | [] => [x]
  | y :: rest => if x.2 < y.2 then x :: y :: rest else y :: heapPush rest x

/-- One embedding-index entry of `findSimilar`: resolve the id in the table
(the Go loop reads `ms.memories[id]`), score by dot product with the
normalized query, insert while the queue is below `limit`, otherwise replace
the queue minimum exactly when the candidate scores strictly higher.  On an
empty queue with `limit ≤ 0` the source would panic on `(*h)[0]`; that branch
is modelled as a no-op and is unreachable through `Query`, whose validated
limit is ≥ 1. -/
def simStep (ms : MemoryStore) (normalizedQuery : List ℚ) (limit : ℤ)
    (h : List (Memory × ℚ)) (entry : String × List ℚ) : List (Memory × ℚ) :=
  match mapLookup entry.1 ms.memories with
  | some mem =>
    if (h.length : ℤ) < limit then heapPush h (mem, dotProduct normalizedQuery entry.2)
    else
      match h with
      | [] => h
      | top :: rest =>
        if dotProduct normalizedQuery entry.2 > top.2 then
          heapPush rest (mem, dotProduct normalizedQuery entry.2)
        else h
  | none => h

/-- `findSimilar`: normalize the query once, fold the bounded min-queue over
the embedding index, and emit by popping minima and prepending — i.e. the
reverse of the final ascending queue. -/
def findSimilar (ms : MemoryStore) (embedding : List ℚ) (limit : ℤ) : List Memory :=
  ((ms.embeddings.foldl (simStep ms (normalizeVector embedding) limit) []).map Prod.fst).reverse

/-- The cosine score `findSimilar` associates with a returned record: dot
product of the normalized query with the record's stored (normalized)
index vector. -/
def simScore (ms : MemoryStore) (embedding : List ℚ) (m : Memory) : ℚ :=
  dotProduct (normalizeVector embedding) ((mapLookup m.id ms.embeddings).getD [])

/-! ## Relation graph and traversal (`memory_store.go` 283–315, 464–500) -/

/-- The `To`-endpoints of the outgoing edges of `id`. -/
def relTargets (ms : MemoryStore) (id : String) : List String :=
  ((mapLookup id ms.relations).getD []).map MemoryRelation.toId

/-- Inner loop of `findRelated`: process one frontier.  For each queued id not
yet visited: mark visited, append the table record (the start id itself is
excluded), and queue the not-yet-visited targets of its outgoing edges.
Returns the updated visited set, results, and the next frontier. -/
def frInner (ms : MemoryStore) (memoryID : String) :
    List String → List String → List Memory → List String →
    List String × List Memory × List String
  | [], visited, results, nextQueue => (visited, results, nextQueue)
  | id :: rest, visited, results, nextQueue =>
    if id ∈ visited then frInner ms memoryID rest visited results nextQueue
    else
      let visited' := id :: visited
      let results' :=
        match mapLookup id ms.memories with
        | some mem => if id ≠ memoryID then results ++ [mem] else results
        | none => results
      let nexts := (relTargets ms id).filter (fun t => decide (t ∉ visited'))
      frInner ms memoryID rest visited' results' (nextQueue ++ nexts)

/-- Outer loop of `findRelated`: `for d := 0; d < depth && len(queue) > 0`. -/
def frOuter (ms : MemoryStore) (memoryID : String) :
    ℕ → List String → List String → List Memory → List Memory
  | 0, _, _, results => results
  | d + 1, queue, visited, results =>
    if queue = [] then results
    else
      let step := frInner ms memoryID queue visited results []
      frOuter ms memoryID d step.2.2 step.1 step.2.1

/-- `findRelated`: breadth-first traversal from `memoryID`, `depth` frontiers
(a non-positive Go `depth` runs zero iterations). -/
def findRelated (ms : MemoryStore) (memoryID : String) (depth : ℤ) : List Memory :=
  frOuter ms memoryID depth.toNat [memoryID] [] []

/-- `CreateRelation` (`memory_store.go` 464–500): validations, the silent
clamp of an out-of-range strength to 0.5, endpoint-existence checks, then
append to the adjacency list of `from`.  Result pairs the (possibly unchanged)
state with the error, mirroring mutate-in-place-or-return-early. -/
def CreateRelation (ms : MemoryStore) (fromID toID relationType : String) (strength : ℚ) :
    MemoryStore × Option String :=
  if fromID = "" then (ms, some "from_id cannot be empty")
  else if toID = "" then (ms, some "to_id cannot be empty")
  else if relationType = "" then (ms, some "relation_type cannot be empty")
  else
    let strength := if strength < 0 ∨ strength > 1 then 1/2 else strength
    if (mapLookup fromID ms.memories).isNone then
      (ms, some ("memory with ID " ++ fromID ++ " does not exist"))
    else if (mapLookup toID ms.memories).isNone then
      (ms, some ("memory with ID " ++ toID ++ " does not exist"))
    else
      let rels := (mapLookup fromID ms.relations).getD []
        ++ [MemoryRelation.mk fromID toID relationType strength]
      ({ ms with relations := mapSet fromID rels ms.relations }, none)

/-! ## Removal, eviction, store (`mcp_server.go` 798–830, `memory_store.go` 157–202) -/

/-- `removeMemory` (`mcp_server.go` 814–830): delete the record from the
table, from its type's index set, its outgoing-relation adjacency entry, and
the embedding and keyword indexes; finally run the 7-day whole-bucket cleanup
of the time index (`now` stands for `time.Now()` inside
`cleanupTimeBuckets`).  Note the record is *not* removed from its own time
bucket. -/
def removeMemory (ms : MemoryStore) (id : String) (now : ℤ) : MemoryStore :=
  match mapLookup id ms.memories with
  | none => ms
  | some mem =>
    let ms1 : MemoryStore :=
      { ms with
        memories := mapErase id ms.memories,
        typeIndex := mapAdjust mem.type (fun ids => ids.filter (fun i => i ≠ id)) ms.typeIndex,
        relations := mapErase id ms.relations,
        embeddings := mapErase id ms.embeddings }
    cleanupTimeBuckets (removeFromKeywordIndex ms1 mem) now

/-- One step of the minimum scan in `evictLeastImportant`: keep the entry
with strictly smaller importance (the incumbent wins ties). -/
def leastStep (least : Option (String × Memory)) (entry : String × Memory) :
    Option (String × Memory) :=
  match least with
  | none => some entry
  | some l => if entry.2.importance < l.2.importance then some entry else some l

/-- The entry `evictLeastImportant` selects: the first entry, in iteration
order, whose importance is strictly below every earlier minimum. -/
def leastImportantEntry (ms : MemoryStore) : Option (String × Memory) :=
  ms.memories.foldl leastStep none

/-- `evictLeastImportant` (`mcp_server.go` 798–812): remove the selected
minimum-importance record; the guard `leastID != ""` skips removal when the
table is empty (or the minimum is keyed by the empty string). -/
def evictLeastImportant (ms : MemoryStore) (now : ℤ) : MemoryStore :=
  match leastImportantEntry ms with
  | some l => if l.1 ≠ "" then removeMemory ms l.1 now else ms
  | none => ms

/-- `Store` (`memory_store.go` 157–202): validations and the duplicate-id
check return early with the state unchanged; otherwise evict once when at or
above capacity, then insert into the table, the type index (a write under an
uninitialized type key would panic on Go's nil inner map and is modelled as a
no-op; the validating entry point `StoreMemory` makes it unreachable), the
time and keyword indexes, and — when an embedding is present — the embedding
index, storing the normalized copy.  The Go `memory == nil` check has no
counterpart here (no null references). -/
def Store (ms : MemoryStore) (memory : Memory) (now : ℤ) : MemoryStore × Option String :=
  if memory.id = "" then (ms, some "memory ID cannot be empty")
  else if memory.content = "" then (ms, some "memory content cannot be empty")
  else if memory.importance < 0 ∨ memory.importance > 1 then
    (ms, some "memory importance must be between 0 and 1")
  else if (mapLookup memory.id ms.memories).isSome then
    (ms, some ("memory with ID " ++ memory.id ++ " already exists"))
  else
    let ms1 := if (ms.memories.length : ℤ) ≥ ms.maxMemories then evictLeastImportant ms now else ms
    let ms2 := { ms1 with memories := mapSet memory.id memory ms1.memories }
    let ms3 := { ms2 with typeIndex := mapAdjust memory.type (fun ids => insertIdOnce ids memory.id) ms2.typeIndex }
    let ms4 := addToKeywordIndex (addToTimeIndex ms3 memory) memory
    match memory.embedding with
    | some emb => ({ ms4 with embeddings := mapSet memory.id (normalizeVector emb) ms4.embeddings }, none)
    | none => (ms4, none)

/-! ## Maintenance passes (`memory_store.go` 333–398) -/

/-- `applyDecay` (`memory_store.go` 373–398): first pass decrements every
record's importance by `hoursSinceLastAccess × decayRate`; records whose new
importance is below 0.1 are collected in iteration order and then removed
through `removeMemory`. -/
def applyDecay (ms : MemoryStore) (now : ℤ) : MemoryStore :=
  let decayed := ms.memories.map (fun p =>
    (p.1, { p.2 with importance := p.2.importance - ((now - p.2.lastAccess : ℤ) : ℚ) / 3600 * p.2.decay }))
  let toRemove := ((decayed.filter (fun p => decide (p.2.importance < 1/10))).map Prod.fst)
  toRemove.foldl (fun s id => removeMemory s id now) { ms with memories := decayed }

/-- One step of `consolidateMemories`: the record behind a short-term index
entry (the Go loop reads it through the index's aliasing pointer; the model
resolves through the table) is promoted to long-term when `accessCount > 3`
or `importance > 0.7`, the type-index sets are updated, and every outgoing
relation strength is multiplied by 1.2 (modelled as `6/5`), unclamped. -/
def consolidateOne (ms : MemoryStore) (id : String) : MemoryStore :=
  match mapLookup id ms.memories with
  | none => ms
  | some mem =>
    if mem.accessCount > 3 ∨ mem.importance > 7/10 then
      { ms with
        memories := mapSet id { mem with type := LongTerm } ms.memories,
        typeIndex :=
          mapAdjust LongTerm (fun ids => insertIdOnce ids id)
            (mapAdjust ShortTerm (fun ids => ids.filter (fun i => i ≠ id)) ms.typeIndex),
        relations := mapAdjust id (List.map (fun rel => { rel with strength := rel.strength * (6/5) })) ms.relations }
    else ms

/-- `consolidateMemories` (`memory_store.go` 333–355): fold over the
short-term index set.  The Go loop ranges over the live map while deleting
only the entry being processed, so it visits exactly the initial entries; the
fold over the initial id list is that iteration. -/
def consolidateMemories (ms : MemoryStore) : MemoryStore :=
  ((mapLookup ShortTerm ms.typeIndex).getD []).foldl consolidateOne ms

/-! ## Query dispatch (`memory_store.go` 205–245) -/

structure QueryCriteria where
  type : String
  keywords : List String
  memoryType : MemoryType
  embedding : List ℚ
  startTime : ℤ
  endTime : ℤ
  memoryID : String
  depth : ℤ
  limit : ℤ
deriving DecidableEq, Repr

/-- `Query`: validate (empty type, negative limit, default 0 → 10, cap 1000),
dispatch on the strategy tag with `keywords` as the default, then set
`lastAccess`/`accessCount` on every returned record (an in-place pointer
mutation in Go; the model applies it to the returned copies). -/
def Query (ms : MemoryStore) (criteria : QueryCriteria) (now : ℤ) :
    Except String (List Memory) :=
  if criteria.type = "" then .error "query type cannot be empty"
  else if criteria.limit < 0 then .error "query limit cannot be negative"
  else
    let limit := if criteria.limit = 0 then 10 else criteria.limit
    if limit > 1000 then .error "query limit cannot exceed 1000"
    else
      let results :=
        if criteria.type = "similarity" then findSimilar ms criteria.embedding limit
        else if criteria.type = "temporal" then findTemporal ms criteria.startTime criteria.endTime
        else if criteria.type = "type" then findByType ms criteria.memoryType
        else if criteria.type = "related" then findRelated ms criteria.memoryID criteria.depth
        else findByKeywords ms criteria.keywords
      .ok (results.map (fun m => { m with lastAccess := now, accessCount := m.accessCount + 1 }))

/-- Apply a sequence of store requests; a failed `Store` leaves the state
unchanged (its first component is the input state on error). -/
def applyStores (ms : MemoryStore) : List (Memory × ℤ) → MemoryStore
  | [] => ms
  | (m, now) :: rest => applyStores (Store ms m now).1 rest

/-- The table invariant `Store` maintains: duplicate-free keys, no empty key,
and size within the configured maximum. -/
def StoreInv (ms : MemoryStore) : Prop :=
  (mapKeys ms.memories).Nodup ∧ (∀ p ∈ ms.memories, p.1 ≠ "") ∧
    ((ms.memories.length : ℤ) ≤ ms.maxMemories)

/-- A directed path of length exactly `n` from `start`, following outgoing
relation edges. -/
inductive ReachN (ms : MemoryStore) (start : String) : ℕ → String → Prop
  | zero : ReachN ms start 0 start
  | succ {n : ℕ} {id next : String} :
      ReachN ms start n id → next ∈ relTargets ms id → ReachN ms start (n + 1) next

/-! ## Concrete fixtures used by witnesses and counterexamples -/

/-- A well-formed record with content `"Elephant55 rocks"` and a unit
embedding. -/
def exMem : Memory :=
  { id := "a", type := ShortTerm, content := "Elephant55 rocks", embedding := some [1, 0, 0],
    timestamp := 1000000, lastAccess := 1000000, accessCount := 0,
    importance := 1/2, decay := 1/100 }

/-- A store holding just `exMem`. -/
def exS1 : MemoryStore := (Store (NewMemoryStore 10) exMem 1000000).1

/-- A minimal valid record without an embedding. -/
def plainMem : Memory :=
  { id := "p", type := ShortTerm, content := "plain words", embedding := none,
    timestamp := 0, lastAccess := 0, accessCount := 0, importance := 1/2, decay := 1/100 }

/-- A record with empty content (rejected by validation). -/
def c5Bad : Memory :=
  { id := "x", type := ShortTerm, content := "", embedding := none,
    timestamp := 0, lastAccess := 0, accessCount := 0, importance := 1/2, decay := 1/100 }

/-- A second record, `"b"`, mirroring `exMem` with the same embedding. -/
def exMemB : Memory :=
  { id := "b", type := ShortTerm, content := "bravo item", embedding := some [1, 0, 0],
    timestamp := 1000000, lastAccess := 1000000, accessCount := 0,
    importance := 3/5, decay := 1/100 }

/-- Store holding `exMem` and `exMemB` (identical embeddings — tied scores). -/
def exS2 : MemoryStore := (Store exS1 exMemB 1000000).1

/-- `exS2` plus the relation `a → b` with strength `9/10`. -/
def exS2Rel : MemoryStore := (CreateRelation exS2 "a" "b" "refines" (9/10)).1

/-- `exS2Rel` with record `a` made eligible for consolidation
(`accessCount = 5`). -/
def exS2RelHot : MemoryStore :=
  { exS2Rel with memories := mapSet "a" { exMem with accessCount := 5 } exS2Rel.memories }

/-- Eleven distinct short-term records (for the query-limit claim). -/
def c8Store : MemoryStore :=
  ["m0", "m1", "m2", "m3", "m4", "m5", "m6", "m7", "m8", "m9", "m10"].foldl (fun s i =>
    (Store s { id := i, type := ShortTerm, content := "filler content",
               embedding := none, timestamp := 0, lastAccess := 0, accessCount := 0,
               importance := 1/2, decay := 1/100 } 0).1) (NewMemoryStore 100)

/-- A type-strategy criteria value with limit `l`. -/
def c8Criteria (l : ℤ) : QueryCriteria :=
  { type := "type", keywords := [], memoryType := ShortTerm, embedding := [],
    startTime := 0, endTime := 0, memoryID := "", depth := 0, limit := l }

/-! ## General map lemmas -/

theorem mapLookup_some_mem {κ β : Type} [DecidableEq κ] {k : κ} {v : β}
    {l : List (κ × β)} (h : mapLookup k l = some v) : (k, v) ∈ l := by
  induction l with
  | nil => simp [mapLookup] at h
  | cons p rest ih =>
    obtain ⟨k₀, v₀⟩ := p
    by_cases h₀ : k₀ = k
    · subst h₀
      simp [mapLookup] at h
      simp [h]
    · simp [mapLookup, h₀] at h
      exact List.mem_cons_of_mem _ (ih h)

theorem mapLookup_eq_none_iff {κ β : Type} [DecidableEq κ] {k : κ}
    {l : List (κ × β)} : mapLookup k l = none ↔ k ∉ mapKeys l := by
  induction l with
  | nil => simp [mapLookup, mapKeys]
  | cons p rest ih =>
    obtain ⟨k₀, v₀⟩ := p
    by_cases h₀ : k₀ = k
    · subst h₀
      simp [mapLookup, mapKeys]
    · simp [mapLookup, h₀, mapKeys, Ne.symm h₀]
      simpa [mapKeys] using ih

theorem mapLookup_eq_of_mem_nodup {κ β : Type} [DecidableEq κ] {k : κ} {v : β}
    {l : List (κ × β)} (hnd : (mapKeys l).Nodup) (hmem : (k, v) ∈ l) :
    mapLookup k l = some v := by
  induction l with
  | nil => simp at hmem
  | cons p rest ih =>
    obtain ⟨k₀, v₀⟩ := p
    rw [mapKeys, List.map_cons, List.nodup_cons] at hnd
    rcases List.mem_cons.1 hmem with h | h
    · rw [Prod.mk.injEq] at h
      obtain ⟨h1, h2⟩ := h
      subst h1
      subst h2
      simp [mapLookup]
    · by_cases h₀ : k₀ = k
      · subst h₀
        exact absurd (List.mem_map.2 ⟨(k₀, v), h, rfl⟩) hnd.1
      · rw [mapLookup, if_neg h₀]
        exact ih hnd.2 h

theorem mapSet_of_lookup_none {κ β : Type} [DecidableEq κ] {k : κ} (v : β)
    {l : List (κ × β)} (h : mapLookup k l = none) : mapSet k v l = l ++ [(k, v)] := by
  induction l with
  | nil => simp [mapSet]
  | cons p rest ih =>
    obtain ⟨k₀, v₀⟩ := p
    by_cases h₀ : k₀ = k
    · subst h₀
      simp [mapLookup] at h
    · rw [mapLookup, if_neg h₀] at h
      simp [mapSet, h₀, ih h]

theorem length_mapErase_of_lookup_some {κ β : Type} [DecidableEq κ] {k : κ} {v : β}
    {l : List (κ × β)} (hnd : (mapKeys l).Nodup) (h : mapLookup k l = some v) :
    (mapErase k l).length + 1 = l.length := by
  induction l with
  | nil => simp [mapLookup] at h
  | cons p rest ih =>
    obtain ⟨k₀, v₀⟩ := p
    rw [mapKeys, List.map_cons, List.nodup_cons] at hnd
    by_cases h₀ : k₀ = k
    · subst h₀
      have hrest : mapErase k₀ rest = rest := by
        apply List.filter_eq_self.2
        intro p hp
        simp only [ne_eq, decide_eq_true_eq]
        intro hk
        exact hnd.1 (List.mem_map.2 ⟨p, hp, hk⟩)
      have hdrop : mapErase k₀ ((k₀, v₀) :: rest) = mapErase k₀ rest := by
        simp [mapErase]
      rw [hdrop, hrest, List.length_cons]
    · rw [mapLookup, if_neg h₀] at h
      have hih := ih hnd.2 h
      have hcons : mapErase k ((k₀, v₀) :: rest) = (k₀, v₀) :: mapErase k rest := by
        simp [mapErase, h₀]
      rw [hcons, List.length_cons, List.length_cons]
      omega

theorem mapKeys_sublist_mapErase {κ β : Type} [DecidableEq κ] (k : κ)
    (l : List (κ × β)) : (mapKeys (mapErase k l)).Sublist (mapKeys l) :=
  List.Sublist.map Prod.fst (List.filter_sublist l)

theorem mem_insertIdOnce {acc : List String} {id x : String} :
    x ∈ insertIdOnce acc id ↔ x ∈ acc ∨ x = id := by
  by_cases h : id ∈ acc
  · simp [insertIdOnce, h]
    intro hx
    subst hx
    exact h
  · simp [insertIdOnce, h]

theorem nodup_insertIdOnce {acc : List String} (id : String) (h : acc.Nodup) :
    (insertIdOnce acc id).Nodup := by
  by_cases hm : id ∈ acc
  · simpa [insertIdOnce, hm] using h
  · simp [insertIdOnce, hm, List.nodup_append, h]

/-! ## C10: temporal query bounds -/

theorem findTemporal_foldl (l : List (ℤ × List Memory)) (acc : List Memory)
    (start endT : ℤ) :
    l.foldl (fun results b =>
        results ++ b.2.filter (fun mem => decide (start < mem.timestamp ∧ mem.timestamp < endT))) acc
      = acc ++ (l.map (fun b =>
          b.2.filter (fun mem => decide (start < mem.timestamp ∧ mem.timestamp < endT)))).flatten := by
  induction l generalizing acc with
  | nil => simp
  | cons b rest ih =>
    rw [List.foldl_cons, ih, List.map_cons, List.flatten_cons, List.append_assoc]

/-- C10: a temporal query uses strictly exclusive bounds on both ends — a
bucket member is returned exactly when `start < timestamp < end`, so a record
whose timestamp equals `start` or `end` is excluded. -/
theorem c10_findTemporal_strict_bounds (ms : MemoryStore) (start endT : ℤ) (mem : Memory) :
    mem ∈ findTemporal ms start endT ↔
      (∃ b ∈ ms.timeBuckets, mem ∈ b.2) ∧ start < mem.timestamp ∧ mem.timestamp < endT := by
  rw [findTemporal, findTemporal_foldl]
  simp only [List.nil_append, List.mem_flatten, List.mem_map]
  constructor
  · rintro ⟨filtered, ⟨b, hb, rfl⟩, hmem⟩
    rw [List.mem_filter] at hmem
    refine ⟨⟨b, hb, hmem.1⟩, ?_⟩
    simpa using hmem.2
  · rintro ⟨⟨b, hb, hmem⟩, hrange⟩
    exact ⟨_, ⟨b, hb, rfl⟩, List.mem_filter.2 ⟨hmem, by simpa using hrange⟩⟩

/-! ## C5: store validation, conflict, and failure frame -/

/-- C5: `Store` fails with one of the three validation messages whenever the
id is empty, the content is empty, or the importance is outside `[0,1]`; it
fails with the duplicate-id conflict message when the input is valid but the
id is already present; and every failure leaves the entire store state
unchanged. -/
theorem c5_store_validation (ms : MemoryStore) (memory : Memory) (now : ℤ) :
    ((memory.id = "" ∨ memory.content = "" ∨ memory.importance < 0 ∨ memory.importance > 1) →
      (Store ms memory now).1 = ms ∧
        ((Store ms memory now).2 = some "memory ID cannot be empty" ∨
         (Store ms memory now).2 = some "memory content cannot be empty" ∨
         (Store ms memory now).2 = some "memory importance must be between 0 and 1")) ∧
    ((memory.id ≠ "" ∧ memory.content ≠ "" ∧ 0 ≤ memory.importance ∧ memory.importance ≤ 1 ∧
        (mapLookup memory.id ms.memories).isSome) →
      (Store ms memory now).1 = ms ∧
        (Store ms memory now).2 = some ("memory with ID " ++ memory.id ++ " already exists")) ∧
    ((Store ms memory now).2 ≠ none → (Store ms memory now).1 = ms) := by
  refine ⟨?_, ?_, ?_⟩
  · intro h
    rw [Store]
    by_cases h1 : memory.id = ""
    · simp [h1]
    by_cases h2 : memory.content = ""
    · simp [h1, h2]
    have h3 : memory.importance < 0 ∨ memory.importance > 1 := by tauto
    simp [h1, h2, h3]
  · rintro ⟨h1, h2, h3, h4, h5⟩
    have h34 : ¬ (memory.importance < 0 ∨ memory.importance > 1) := by
      push_neg
      exact ⟨h3, h4⟩
    rw [Store]
    simp [h1, h2, h34, h5]
  · intro herr
    rw [Store] at herr ⊢
    by_cases h1 : memory.id = ""
    · simp [h1]
    by_cases h2 : memory.content = ""
    · simp [h1, h2]
    by_cases h3 : memory.importance < 0 ∨ memory.importance > 1
    · simp [h1, h2, h3]
    by_cases h5 : (mapLookup memory.id ms.memories).isSome
    · simp [h1, h2, h3, h5]
    · exfalso
      apply herr
      simp only [h1, h2, h3, h5, if_false, if_neg]
      cases hemb : memory.embedding <;> simp [h1, h2, h3, h5, hemb]

/-- Witness for C5 at concrete inputs: an empty-content record is rejected
with the state untouched, and a duplicate id is rejected with the conflict
message. -/
theorem c5_witness :
    (c5Bad.id = "" ∨ c5Bad.content = "" ∨ c5Bad.importance < 0 ∨ c5Bad.importance > 1) ∧
    ((Store (NewMemoryStore 10) c5Bad 0).1 = NewMemoryStore 10 ∧
      ((Store (NewMemoryStore 10) c5Bad 0).2 = some "memory ID cannot be empty" ∨
       (Store (NewMemoryStore 10) c5Bad 0).2 = some "memory content cannot be empty" ∨
       (Store (NewMemoryStore 10) c5Bad 0).2 = some "memory importance must be between 0 and 1")) :=
  ⟨by decide, (c5_store_validation (NewMemoryStore 10) c5Bad 0).1 (by decide)⟩

/-! ## C8: the query limit bounds only the similarity strategy -/

/-- C8: for every non-similarity strategy (temporal, type, related, and the
keyword default) the validated limit is never applied — the query result is
the same for any two valid limits — and a type query over eleven records with
the default limit 10 returns eleven records, exceeding the limit. -/
theorem c8_limit_only_similarity :
    (∀ (ms : MemoryStore) (c : QueryCriteria) (now l₁ l₂ : ℤ),
      c.type ≠ "" → c.type ≠ "similarity" →
      0 ≤ l₁ → (if l₁ = 0 then (10 : ℤ) else l₁) ≤ 1000 →
      0 ≤ l₂ → (if l₂ = 0 then (10 : ℤ) else l₂) ≤ 1000 →
      Query ms { c with limit := l₁ } now = Query ms { c with limit := l₂ } now) ∧
    (∀ now : ℤ, ∃ r : List Memory,
      Query c8Store (c8Criteria 10) now = .ok r ∧ (r.length : ℤ) > (c8Criteria 10).limit) := by
  constructor
  · intro ms c now l₁ l₂ ht hs h₁ h₁c h₂ h₂c
    rw [Query, Query]
    simp only [ht, if_neg (by simpa using ht), not_lt.2 h₁, not_lt.2 h₂, if_false]
    simp [not_lt.2 h₁c, not_lt.2 h₂c, hs]
  · intro now
    refine ⟨_, rfl, ?_⟩
    rw [List.length_map]
    decide

/-- Witness for C8: a type query over `c8Store` gives identical output for
limits 7 and 900. -/
theorem c8_witness :
    ((c8Criteria 0).type ≠ "" ∧ (c8Criteria 0).type ≠ "similarity" ∧
      (0 : ℤ) ≤ 7 ∧ (if (7 : ℤ) = 0 then (10 : ℤ) else 7) ≤ 1000 ∧
      (0 : ℤ) ≤ 900 ∧ (if (900 : ℤ) = 0 then (10 : ℤ) else 900) ≤ 1000) ∧
    Query c8Store { c8Criteria 0 with limit := 7 } 5 =
      Query c8Store { c8Criteria 0 with limit := 900 } 5 :=
  ⟨by decide, c8_limit_only_similarity.1 c8Store (c8Criteria 0) 5 7 900
    (by decide) (by decide) (by decide) (by decide) (by decide) (by decide)⟩

/-! ## C9: traversal depth bound -/

theorem reachN_zero_eq {ms : MemoryStore} {start id : String}
    (h : ReachN ms start 0 id) : id = start := by
  cases h
  rfl

theorem frInner_results_mem (ms : MemoryStore) (mid : String) :
    ∀ (q v : List String) (r : List Memory) (nq : List String),
      ∀ m ∈ (frInner ms mid q v r nq).2.1,
        m ∈ r ∨ ∃ id ∈ q, mapLookup id ms.memories = some m ∧ id ≠ mid := by
  intro q
  induction q with
  | nil =>
    intro v r nq m hm
    exact Or.inl hm
  | cons id rest ih =>
    intro v r nq m hm
    rw [frInner] at hm
    by_cases hv : id ∈ v
    · rw [if_pos hv] at hm
      rcases ih v r nq m hm with h | ⟨id', hid', hl⟩
      · exact Or.inl h
      · exact Or.inr ⟨id', List.mem_cons_of_mem _ hid', hl⟩
    · rw [if_neg hv] at hm
      rcases ih _ _ _ m hm with h | ⟨id', hid', hl⟩
      · rcases hlk : mapLookup id ms.memories with _ | mem
        · rw [hlk] at h
          exact Or.inl h
        · rw [hlk] at h
          have h' : m ∈ (if id ≠ mid then r ++ [mem] else r) := h
          by_cases hne : id ≠ mid
          · rw [if_pos hne] at h'
            rcases List.mem_append.1 h' with hh | hh
            · exact Or.inl hh
            · rcases List.mem_singleton.1 hh with rfl
              exact Or.inr ⟨id, List.mem_cons_self .., hlk, hne⟩
          · rw [if_neg hne] at h'
            exact Or.inl h'
      · exact Or.inr ⟨id', List.mem_cons_of_mem _ hid', hl⟩

theorem frInner_next_mem (ms : MemoryStore) (mid : String) :
    ∀ (q v : List String) (r : List Memory) (nq : List String),
      ∀ t ∈ (frInner ms mid q v r nq).2.2,
        t ∈ nq ∨ ∃ id ∈ q, t ∈ relTargets ms id := by
  intro q
  induction q with
  | nil =>
    intro v r nq t ht
    exact Or.inl ht
  | cons id rest ih =>
    intro v r nq t ht
    rw [frInner] at ht
    by_cases hv : id ∈ v
    · rw [if_pos hv] at ht
      rcases ih v r nq t ht with h | ⟨id', hid', hl⟩
      · exact Or.inl h
      · exact Or.inr ⟨id', List.mem_cons_of_mem _ hid', hl⟩
    · rw [if_neg hv] at ht
      rcases ih _ _ _ t ht with h | ⟨id', hid', hl⟩
      · rcases List.mem_append.1 h with h' | h'
        · exact Or.inl h'
        · exact Or.inr ⟨id, List.mem_cons_self .., (List.mem_filter.1 h').1⟩
      · exact Or.inr ⟨id', List.mem_cons_of_mem _ hid', hl⟩

theorem frOuter_bound (ms : MemoryStore) (start : String)
    (hids : ∀ p ∈ ms.memories, p.2.id = p.1) :
    ∀ (fuel : ℕ) (q v : List String) (r : List Memory) (j : ℕ),
      (∀ id ∈ q, ∃ k, k ≤ j ∧ ReachN ms start k id) →
      (∀ m ∈ r, m.id ≠ start ∧ ∃ k, 1 ≤ k ∧ k < j ∧ ReachN ms start k m.id) →
      ∀ m ∈ frOuter ms start fuel q v r,
        m.id ≠ start ∧ ∃ k, 1 ≤ k ∧ k < j + fuel ∧ ReachN ms start k m.id := by
  intro fuel
  induction fuel with
  | zero =>
    intro q v r j hq hr m hm
    rw [frOuter] at hm
    obtain ⟨h1, k, hk1, hk2, hk3⟩ := hr m hm
    exact ⟨h1, k, hk1, by omega, hk3⟩
  | succ fuel ih =>
    intro q v r j hq hr m hm
    rw [frOuter] at hm
    by_cases hqe : q = []
    · rw [if_pos hqe] at hm
      obtain ⟨h1, k, hk1, hk2, hk3⟩ := hr m hm
      exact ⟨h1, k, hk1, by omega, hk3⟩
    · rw [if_neg hqe] at hm
      have hnext : ∀ t ∈ (frInner ms start q v r []).2.2, ∃ k, k ≤ j + 1 ∧ ReachN ms start k t := by
        intro t ht
        rcases frInner_next_mem ms start q v r [] t ht with h | ⟨id, hid, hrel⟩
        · simp at h
        · obtain ⟨k, hk, hre⟩ := hq id hid
          exact ⟨k + 1, by omega, ReachN.succ hre hrel⟩
      have hres : ∀ m ∈ (frInner ms start q v r []).2.1,
          m.id ≠ start ∧ ∃ k, 1 ≤ k ∧ k < j + 1 ∧ ReachN ms start k m.id := by
        intro m hm'
        rcases frInner_results_mem ms start q v r [] m hm' with h | ⟨id, hid, hlk, hne⟩
        · obtain ⟨h1, k, hk1, hk2, hk3⟩ := hr m h
          exact ⟨h1, k, hk1, by omega, hk3⟩
        · have hmid : m.id = id := hids (id, m) (mapLookup_some_mem hlk)
          obtain ⟨k, hk, hre⟩ := hq id hid
          have hk1 : 1 ≤ k := by
            rcases Nat.eq_zero_or_pos k with h0 | h0
            · subst h0
              exact absurd (reachN_zero_eq hre) (hmid ▸ hne)
            · exact h0
          exact ⟨hmid ▸ hne, k, hk1, by omega, hmid ▸ hre⟩
      have := ih (frInner ms start q v r []).2.2 (frInner ms start q v r []).1
        (frInner ms start q v r []).2.1 (j + 1) hnext hres m hm
      obtain ⟨h1, k, hk1, hk2, hk3⟩ := this
      exact ⟨h1, k, hk1, by omega, hk3⟩

/-- C9: every record returned by `findRelated` lies at a path of length at
most `depth - 1` from the start (and is never the start itself), and with
depth 1 the traversal returns nothing, so a direct neighbour requires depth at
least 2. -/
theorem c9_findRelated_depth_bound (ms : MemoryStore) (start : String) (depth : ℤ)
    (hids : ∀ p ∈ ms.memories, p.2.id = p.1) :
    (∀ m ∈ findRelated ms start depth,
      m.id ≠ start ∧ ∃ k : ℕ, 1 ≤ k ∧ (k : ℤ) ≤ depth - 1 ∧ ReachN ms start k m.id) ∧
    findRelated ms start 1 = [] := by
  constructor
  · intro m hm
    have hstart : ∀ id ∈ [start], ∃ k, k ≤ 0 ∧ ReachN ms start k id := by
      intro id hid
      rcases List.mem_singleton.1 hid with rfl
      exact ⟨0, le_refl 0, ReachN.zero⟩
    have hr : ∀ m₀ ∈ ([] : List Memory),
        m₀.id ≠ start ∧ ∃ k, 1 ≤ k ∧ k < 0 ∧ ReachN ms start k m₀.id := by
      intro m₀ hm₀
      simp at hm₀
    obtain ⟨h1, k, hk1, hk2, hk3⟩ :=
      frOuter_bound ms start hids depth.toNat [start] [] [] 0 hstart hr m hm
    exact ⟨h1, k, hk1, by omega, hk3⟩
  · show frOuter ms start (1 : ℤ).toNat [start] [] [] = []
    rw [show (1 : ℤ).toNat = 1 from rfl]
    rcases h : mapLookup start ms.memories with _ | mem <;>
      simp [frOuter, frInner, h]

/-! ## C6: keyword tokenization and query semantics -/

theorem wordsAux_spec :
    ∀ (cs cur : List Char), (∀ c ∈ cur, isWordChar c = true) →
      ∀ w ∈ wordsAux cs cur, w.toList ≠ [] ∧ ∀ c ∈ w.toList, isWordChar c = true := by
  intro cs
  induction cs with
  | nil =>
    intro cur hcur w hw
    rw [wordsAux] at hw
    by_cases h : cur = []
    · simp [h] at hw
    · rw [if_neg h] at hw
      rcases List.mem_singleton.1 hw with rfl
      refine ⟨by simpa [String.toList] using h, ?_⟩
      intro c hc
      exact hcur c (by simpa [String.toList] using hc)
  | cons c cs ih =>
    intro cur hcur w hw
    rw [wordsAux] at hw
    by_cases hword : isWordChar c
    · rw [if_pos hword] at hw
      refine ih (c :: cur) ?_ w hw
      intro c' hc'
      rcases List.mem_cons.1 hc' with rfl | hc''
      · exact hword
      · exact hcur c' hc''
    · rw [if_neg hword] at hw
      by_cases hcur0 : cur = []
      · rw [if_pos hcur0] at hw
        exact ih [] (by simp) w hw
      · rw [if_neg hcur0] at hw
        rcases List.mem_cons.1 hw with rfl | hw'
        · refine ⟨by simpa [String.toList] using hcur0, ?_⟩
          intro c' hc'
          exact hcur c' (by simpa [String.toList] using hc')
        · exact ih [] (by simp) w hw'

theorem kwAdd_fold_mem (id : String) :
    ∀ (words : List String) (idx : List (String × List String)) (tok : String)
      (ids : List String),
      mapLookup tok (words.foldl (kwAddStep id) idx) = some ids →
      (id ∈ ids ↔
        (∃ ids₀, mapLookup tok idx = some ids₀ ∧ id ∈ ids₀) ∨
        ∃ w ∈ words, 3 ≤ w.length ∧ toLowerStr w = tok) := by
  intro words
  induction words with
  | nil =>
    intro idx tok ids h
    simp only [List.foldl_nil] at h
    simp [h]
  | cons w rest ih =>
    intro idx tok ids h
    rw [List.foldl_cons] at h
    have hih := ih (kwAddStep id idx w) tok ids h
    by_cases hw : 3 ≤ w.length
    · by_cases htok : toLowerStr w = tok
      · have hlook : ∃ ids₁, mapLookup tok (kwAddStep id idx w) = some ids₁ ∧ id ∈ ids₁ := by
          rw [kwAddStep, if_pos hw]
          rcases h0 : mapLookup (toLowerStr w) idx with _ | ids₀
          · simp only [h0]
            exact ⟨[id], htok ▸ mapLookup_mapSet_self .., by simp⟩
          · simp only [h0]
            refine ⟨if id ∈ ids₀ then ids₀ else ids₀ ++ [id],
              htok ▸ mapLookup_mapSet_self .., ?_⟩
            by_cases hidm : id ∈ ids₀ <;> simp [hidm]
        have hl : id ∈ ids := hih.2 (Or.inl hlook)
        simp only [hl, true_iff]
        exact Or.inr ⟨w, List.mem_cons_self .., hw, htok⟩
      · have hpre : mapLookup tok (kwAddStep id idx w) = mapLookup tok idx := by
          rw [kwAddStep, if_pos hw]
          rcases h0 : mapLookup (toLowerStr w) idx with _ | ids₀ <;>
            · simp only [h0]
              exact mapLookup_mapSet_ne _ _ htok
        rw [hih, hpre]
        apply or_congr Iff.rfl
        constructor
        · rintro ⟨w', hw', h3, hlw⟩
          exact ⟨w', List.mem_cons_of_mem _ hw', h3, hlw⟩
        · rintro ⟨w', hw', h3, hlw⟩
          rcases List.mem_cons.1 hw' with rfl | hw''
          · exact absurd hlw htok
          · exact ⟨w', hw'', h3, hlw⟩
    · have hstep : kwAddStep id idx w = idx := by
        rw [kwAddStep, if_neg hw]
      rw [hstep] at hih
      rw [hih]
      apply or_congr Iff.rfl
      constructor
      · rintro ⟨w', hw', h3, hlw⟩
        exact ⟨w', List.mem_cons_of_mem _ hw', h3, hlw⟩
      · rintro ⟨w', hw', h3, hlw⟩
        rcases List.mem_cons.1 hw' with rfl | hw''
        · exact absurd h3 hw
        · exact ⟨w', hw'', h3, hlw⟩

theorem foldl_insertIdOnce_mem (x : String) :
    ∀ (l acc : List String), x ∈ l.foldl insertIdOnce acc ↔ x ∈ acc ∨ x ∈ l := by
  intro l
  induction l with
  | nil => simp
  | cons a rest ih =>
    intro acc
    rw [List.foldl_cons, ih, mem_insertIdOnce]
    simp [or_assoc]

theorem foldl_insertIdOnce_nodup :
    ∀ (l acc : List String), acc.Nodup → (l.foldl insertIdOnce acc).Nodup := by
  intro l
  induction l with
  | nil => exact fun acc h => h
  | cons a rest ih =>
    intro acc h
    exact ih _ (nodup_insertIdOnce a h)

theorem kwCollect_mem (ms : MemoryStore) (x : String) :
    ∀ (keywords acc : List String),
      x ∈ keywords.foldl (kwCollectStep ms) acc ↔
        x ∈ acc ∨ ∃ kw ∈ keywords, ∃ ids,
          mapLookup (toLowerStr kw) ms.keywordIndex = some ids ∧ x ∈ ids := by
  intro keywords
  induction keywords with
  | nil => simp
  | cons kw rest ih =>
    intro acc
    rw [List.foldl_cons, ih]
    have hstep : x ∈ kwCollectStep ms acc kw ↔
        x ∈ acc ∨ ∃ ids, mapLookup (toLowerStr kw) ms.keywordIndex = some ids ∧ x ∈ ids := by
      rw [kwCollectStep]
      rcases h0 : mapLookup (toLowerStr kw) ms.keywordIndex with _ | entry
      · simp [h0]
      · rw [foldl_insertIdOnce_mem]
        simp [h0]
    rw [hstep]
    constructor
    · rintro (⟨ha | ⟨ids, hl, hx⟩⟩ | ⟨kw', hkw', ids, hl, hx⟩)
      · exact Or.inl ha
      · exact Or.inr ⟨kw, List.mem_cons_self .., ids, hl, hx⟩
      · exact Or.inr ⟨kw', List.mem_cons_of_mem _ hkw', ids, hl, hx⟩
    · rintro (ha | ⟨kw', hkw', ids, hl, hx⟩)
      · exact Or.inl (Or.inl ha)
      · rcases List.mem_cons.1 hkw' with rfl | hkw''
        · exact Or.inl (Or.inr ⟨ids, hl, hx⟩)
        · exact Or.inr ⟨kw', hkw'', ids, hl, hx⟩

theorem kwCollect_nodup (ms : MemoryStore) :
    ∀ (keywords acc : List String), acc.Nodup → (keywords.foldl (kwCollectStep ms) acc).Nodup := by
  intro keywords
  induction keywords with
  | nil => exact fun acc h => h
  | cons kw rest ih =>
    intro acc h
    apply ih
    rw [kwCollectStep]
    rcases mapLookup (toLowerStr kw) ms.keywordIndex with _ | entry
    · exact h
    · exact foldl_insertIdOnce_nodup entry acc h

theorem filterMap_lookup_ids_nodup (table : List (String × Memory))
    (hids : ∀ p ∈ table, p.2.id = p.1) :
    ∀ ids : List String, ids.Nodup →
      ((ids.filterMap (fun id => mapLookup id table)).map Memory.id).Nodup := by
  intro ids
  induction ids with
  | nil => simp
  | cons id rest ih =>
    intro h
    rw [List.nodup_cons] at h
    rw [List.filterMap_cons]
    rcases h0 : mapLookup id table with _ | m
    · exact ih h.2
    · rw [List.map_cons, List.nodup_cons]
      refine ⟨?_, ih h.2⟩
      intro hcontra
      rcases List.mem_map.1 hcontra with ⟨m', hm', hid'⟩
      rcases List.mem_filterMap.1 hm' with ⟨id', hid'', hl'⟩
      have h1 : m.id = id := hids (id, m) (mapLookup_some_mem h0)
      have h2 : m'.id = id' := hids (id', m') (mapLookup_some_mem hl')
      rw [h2] at hid'
      rw [h1] at hid'
      exact h.1 (hid' ▸ hid'')

/-- C6: tokens are maximal nonempty runs of ASCII letters/digits; after
indexing a record not previously present, a token's entry contains the record
exactly when the token is the lowercase form of a content token of length ≥ 3
(whole tokens, never substrings); a keyword query lowers each keyword,
returns the union of the id-sets of the keywords present — an absent keyword
contributes nothing, with no error — resolved against the table, and the
result carries no duplicate ids. -/
theorem c6_keyword_semantics (ms : MemoryStore) (memory : Memory)
    (keywords : List String) (s : String) :
    (∀ w ∈ extractWords s, w.toList ≠ [] ∧ ∀ c ∈ w.toList, isWordChar c = true) ∧
    ((∀ tok ids, mapLookup tok ms.keywordIndex = some ids → memory.id ∉ ids) →
      ∀ tok ids, mapLookup tok (addToKeywordIndex ms memory).keywordIndex = some ids →
        (memory.id ∈ ids ↔
          ∃ w ∈ extractWords memory.content, 3 ≤ w.length ∧ toLowerStr w = tok)) ∧
    (∀ mem, mem ∈ findByKeywords ms keywords ↔
      ∃ id, mapLookup id ms.memories = some mem ∧
        ∃ kw ∈ keywords, ∃ ids,
          mapLookup (toLowerStr kw) ms.keywordIndex = some ids ∧ id ∈ ids) ∧
    ((∀ p ∈ ms.memories, p.2.id = p.1) →
      ((findByKeywords ms keywords).map Memory.id).Nodup) := by
  refine ⟨wordsAux_spec s.toList [] (by simp), ?_, ?_, ?_⟩
  · intro hfresh tok ids h
    rw [addToKeywordIndex] at h
    rw [kwAdd_fold_mem memory.id (extractWords memory.content) ms.keywordIndex tok ids h]
    constructor
    · rintro (⟨ids₀, hl₀, hm₀⟩ | hword)
      · exact absurd hm₀ (hfresh tok ids₀ hl₀)
      · exact hword
    · exact Or.inr
  · intro mem
    rw [findByKeywords]
    simp only [List.mem_filterMap]
    constructor
    · rintro ⟨id, hid, hl⟩
      rcases (kwCollect_mem ms id keywords []).1 hid with h | h
      · simp at h
      · exact ⟨id, hl, h⟩
    · rintro ⟨id, hl, hcl⟩
      exact ⟨id, (kwCollect_mem ms id keywords []).2 (Or.inr hcl), hl⟩
  · intro hids
    rw [findByKeywords]
    exact filterMap_lookup_ids_nodup ms.memories hids _
      (kwCollect_nodup ms keywords [] (by simp))

/-- Witness for C6 (the spec's `Elephant55` scenario): the record stored with
content `"Elephant55 rocks"` is found by the whole token `elephant55`
(case-insensitively) and not by the substring `eleph`; indexing it into the
empty store put it exactly under its lowered tokens of length ≥ 3. -/
theorem c6_witness :
    ((∀ tok ids, mapLookup tok (NewMemoryStore 10).keywordIndex = some ids → exMem.id ∉ ids) ∧
      ∀ tok ids,
        mapLookup tok (addToKeywordIndex (NewMemoryStore 10) exMem).keywordIndex = some ids →
        (exMem.id ∈ ids ↔
          ∃ w ∈ extractWords exMem.content, 3 ≤ w.length ∧ toLowerStr w = tok)) ∧
    (findByKeywords exS1 ["ELEPHANT55"]).map Memory.id = ["a"] ∧
    (findByKeywords exS1 ["eleph"]).map Memory.id = [] :=
  ⟨⟨fun tok ids h => by simp [NewMemoryStore, mapLookup] at h,
    (c6_keyword_semantics (NewMemoryStore 10) exMem [] "").2.1
      (fun tok ids h => by simp [NewMemoryStore, mapLookup] at h)⟩,
    by decide, by decide⟩

/-- Witness for C9: in the two-record store with the edge `a → b`, traversal
from `a` with depth 2 returns only non-start records within 1 hop, and depth 1
returns nothing. -/
theorem c9_witness :
    (∀ p ∈ exS2Rel.memories, p.2.id = p.1) ∧
    ((∀ m ∈ findRelated exS2Rel "a" 2,
        m.id ≠ "a" ∧ ∃ k : ℕ, 1 ≤ k ∧ (k : ℤ) ≤ 2 - 1 ∧ ReachN exS2Rel "a" k m.id) ∧
      findRelated exS2Rel "a" 1 = []) :=
  ⟨by decide, c9_findRelated_depth_bound exS2Rel "a" 2 (by decide)⟩

/-! ## C1: removal and the indexes (corrected: the time bucket keeps the record) -/

theorem kwRemoveStep_lookup_ne {id w : String} (idx : List (String × List String))
    {tok : String} (htok : toLowerStr w ≠ tok) :
    mapLookup tok (kwRemoveStep id idx w) = mapLookup tok idx := by
  rw [kwRemoveStep]
  by_cases hw : 3 ≤ w.length
  · rw [if_pos hw]
    rcases h0 : mapLookup (toLowerStr w) idx with _ | ids₀
    · simp only [h0]
    · simp only [h0]
      by_cases hemp : ids₀.filter (fun i => i ≠ id) = []
      · rw [if_pos hemp]
        exact mapLookup_mapErase_ne _ htok
      · rw [if_neg hemp]
        exact mapLookup_mapSet_ne _ _ htok
  · rw [if_neg hw]

theorem kwRemove_fold_clears (id : String) :
    ∀ (words : List String) (idx : List (String × List String)),
      (∀ tok ids, mapLookup tok idx = some ids → id ∈ ids →
        ∃ w ∈ words, 3 ≤ w.length ∧ toLowerStr w = tok) →
      ∀ tok ids, mapLookup tok (words.foldl (kwRemoveStep id) idx) = some ids → id ∉ ids := by
  intro words
  induction words with
  | nil =>
    intro idx hinv tok ids h hid
    rcases hinv tok ids h hid with ⟨w, hw, _⟩
    simp at hw
  | cons w rest ih =>
    intro idx hinv tok ids h
    rw [List.foldl_cons] at h
    refine ih (kwRemoveStep id idx w) ?_ tok ids h
    intro tok' ids' hl' hid'
    by_cases hw : 3 ≤ w.length
    · by_cases htok : toLowerStr w = tok'
      · exfalso
        rw [kwRemoveStep, if_pos hw] at hl'
        rcases h0 : mapLookup (toLowerStr w) idx with _ | ids₀
        · simp only [h0] at hl'
          rw [htok] at h0
          rw [h0] at hl'
          cases hl'
        · simp only [h0] at hl'
          by_cases hemp : ids₀.filter (fun i => i ≠ id) = []
          · rw [if_pos hemp, htok] at hl'
            rw [mapLookup_mapErase_self] at hl'
            cases hl'
          · rw [if_neg hemp, htok] at hl'
            rw [mapLookup_mapSet_self] at hl'
            injection hl' with hl''
            subst hl''
            rcases List.mem_filter.1 hid' with ⟨_, hne⟩
            simp at hne
      · rw [kwRemoveStep_lookup_ne idx htok] at hl'
        rcases hinv tok' ids' hl' hid' with ⟨w', hw', h3, hlw⟩
        rcases List.mem_cons.1 hw' with rfl | h''
        · exact absurd hlw htok
        · exact ⟨w', h'', h3, hlw⟩
    · have hstep : kwRemoveStep id idx w = idx := by
        rw [kwRemoveStep, if_neg hw]
      rw [hstep] at hl'
      rcases hinv tok' ids' hl' hid' with ⟨w', hw', h3, hlw⟩
      rcases List.mem_cons.1 hw' with rfl | h''
      · exact absurd h3 hw
      · exact ⟨w', h'', h3, hlw⟩

/-- C1 amended: the removal chokepoint (used by eviction and decay) deletes
the record from the table, from the type index, from the embedding index,
from the keyword index, and drops its outgoing-relation entry — but it does
**not** remove the record from its time bucket: the time index is only
trimmed wholesale, dropping buckets older than the 7-day cutoff, so the
record stays listed in any recent bucket. -/
theorem c1_remove_amended (ms : MemoryStore) (id : String) (now : ℤ) (mem : Memory)
    (hmem : mapLookup id ms.memories = some mem)
    (hid : mem.id = id)
    (htype : ∀ t ids, mapLookup t ms.typeIndex = some ids → id ∈ ids → t = mem.type)
    (hkw : ∀ tok ids, mapLookup tok ms.keywordIndex = some ids → id ∈ ids →
      ∃ w ∈ extractWords mem.content, 3 ≤ w.length ∧ toLowerStr w = tok) :
    mapLookup id (removeMemory ms id now).memories = none ∧
    (∀ t ids, mapLookup t (removeMemory ms id now).typeIndex = some ids → id ∉ ids) ∧
    mapLookup id (removeMemory ms id now).embeddings = none ∧
    (∀ tok ids, mapLookup tok (removeMemory ms id now).keywordIndex = some ids → id ∉ ids) ∧
    mapLookup id (removeMemory ms id now).relations = none ∧
    (removeMemory ms id now).timeBuckets =
      ms.timeBuckets.filter (fun b => ¬ b.1 < hourBucket (now - 24 * 3600 * 7)) := by
  have hrm : removeMemory ms id now =
      cleanupTimeBuckets (removeFromKeywordIndex
        { ms with
          memories := mapErase id ms.memories,
          typeIndex := mapAdjust mem.type (fun ids => ids.filter (fun i => i ≠ id)) ms.typeIndex,
          relations := mapErase id ms.relations,
          embeddings := mapErase id ms.embeddings } mem) now := by
    rw [removeMemory.eq_def, hmem]
  rw [hrm]
  simp only [cleanupTimeBuckets, removeFromKeywordIndex]
  refine ⟨mapLookup_mapErase_self .., ?_, mapLookup_mapErase_self .., ?_,
    mapLookup_mapErase_self .., trivial⟩
  · intro t ids hl hin
    by_cases ht : mem.type = t
    · subst ht
      rw [mapLookup_mapAdjust_self] at hl
      rcases h0 : mapLookup mem.type ms.typeIndex with _ | ids₀
      · rw [h0] at hl
        cases hl
      · rw [h0] at hl
        injection hl with hl'
        subst hl'
        rcases List.mem_filter.1 hin with ⟨_, hne⟩
        simp at hne
    · rw [mapLookup_mapAdjust_ne _ _ ht] at hl
      exact ht (htype t ids hl hin).symm
  · intro tok ids hl
    rw [hid] at hl
    exact kwRemove_fold_clears id (extractWords mem.content) ms.keywordIndex hkw tok ids hl

/-- C1 counterexample: in the one-record store, removing `"a"` empties the
table but the record is still listed in its time bucket — removal does not
delete the record from the time index, contradicting the claim that it is
deleted from every index. -/
theorem c1_counterexample :
    mapLookup "a" (removeMemory exS1 "a" 1000000).memories = none ∧
    ∃ b ∈ (removeMemory exS1 "a" 1000000).timeBuckets, ∃ m ∈ b.2, m.id = "a" := by
  decide

/-- Witness for C1 (amended): removing the only record of `exS1` clears it
from the table, type, embedding and keyword indexes, drops its outgoing
relations, and leaves exactly the 7-day-filtered buckets. -/
theorem c1_witness :
    (mapLookup "a" exS1.memories = some exMem ∧ exMem.id = "a") ∧
    (mapLookup "a" (removeMemory exS1 "a" 1000000).memories = none ∧
      (∀ t ids, mapLookup t (removeMemory exS1 "a" 1000000).typeIndex = some ids → "a" ∉ ids) ∧
      mapLookup "a" (removeMemory exS1 "a" 1000000).embeddings = none ∧
      (∀ tok ids, mapLookup tok (removeMemory exS1 "a" 1000000).keywordIndex = some ids →
        "a" ∉ ids) ∧
      mapLookup "a" (removeMemory exS1 "a" 1000000).relations = none ∧
      (removeMemory exS1 "a" 1000000).timeBuckets =
        exS1.timeBuckets.filter (fun b => ¬ b.1 < hourBucket (1000000 - 24 * 3600 * 7))) :=
  ⟨⟨by decide, by decide⟩,
    c1_remove_amended exS1 "a" 1000000 exMem (by decide) (by decide)
      (fun t ids hl hin => by
        have h := mapLookup_some_mem hl
        have hall : ∀ p ∈ exS1.typeIndex, "a" ∈ p.2 → p.1 = exMem.type := by decide
        exact hall (t, ids) h hin)
      (fun tok ids hl hin => by
        have h := mapLookup_some_mem hl
        have hall : ∀ p ∈ exS1.keywordIndex, "a" ∈ p.2 →
            ∃ w ∈ extractWords exMem.content, 3 ≤ w.length ∧ toLowerStr w = p.1 := by decide
        exact hall (tok, ids) h hin)⟩

/-! ## C7: dangling edges (corrected: outgoing edges are deleted) -/

theorem frOuter_results_table (ms : MemoryStore) (mid : String) :
    ∀ (fuel : ℕ) (q v : List String) (r : List Memory),
      (∀ m ∈ r, ∃ i, mapLookup i ms.memories = some m) →
      ∀ m ∈ frOuter ms mid fuel q v r, ∃ i, mapLookup i ms.memories = some m := by
  intro fuel
  induction fuel with
  | zero =>
    intro q v r hr m hm
    rw [frOuter] at hm
    exact hr m hm
  | succ fuel ih =>
    intro q v r hr m hm
    rw [frOuter] at hm
    by_cases hq : q = []
    · rw [if_pos hq] at hm
      exact hr m hm
    · rw [if_neg hq] at hm
      refine ih _ _ _ ?_ m hm
      intro m' hm'
      rcases frInner_results_mem ms mid q v r [] m' hm' with h | ⟨i, _, hl, _⟩
      · exact hr m' h
      · exact ⟨i, hl⟩

/-- C7 amended: removal deletes the removed record's own adjacency entry
(its outgoing edges are retracted), leaves every other source's edge list
untouched — so edges *into* the removed record dangle — and traversal only
ever returns records present in the table, skipping dangling targets. -/
theorem c7_remove_relations (ms : MemoryStore) (id : String) (now : ℤ)
    (hmem : (mapLookup id ms.memories).isSome) :
    mapLookup id (removeMemory ms id now).relations = none ∧
    (∀ k, k ≠ id → mapLookup k (removeMemory ms id now).relations = mapLookup k ms.relations) ∧
    (∀ (start : String) (depth : ℤ), ∀ m ∈ findRelated ms start depth,
      ∃ i, mapLookup i ms.memories = some m) := by
  rcases hl : mapLookup id ms.memories with _ | mem
  · rw [hl] at hmem
    cases hmem
  · have hrm : removeMemory ms id now =
        cleanupTimeBuckets (removeFromKeywordIndex
          { ms with
            memories := mapErase id ms.memories,
            typeIndex := mapAdjust mem.type (fun ids => ids.filter (fun i => i ≠ id)) ms.typeIndex,
            relations := mapErase id ms.relations,
            embeddings := mapErase id ms.embeddings } mem) now := by
      rw [removeMemory.eq_def, hl]
    rw [hrm]
    simp only [cleanupTimeBuckets, removeFromKeywordIndex]
    refine ⟨mapLookup_mapErase_self .., ?_, ?_⟩
    · intro k hk
      exact mapLookup_mapErase_ne _ (Ne.symm hk)
    · intro start depth m hm
      exact frOuter_results_table ms start depth.toNat [start] [] [] (by simp) m hm

/-- C7 counterexample: with records `a`, `b` and the stored edge `a → b`,
removing `a` deletes that edge (the adjacency entry keyed by `a` is gone),
refuting the claim that every edge with the removed record as an endpoint
remains stored. -/
theorem c7_counterexample :
    mapLookup "a" exS2Rel.relations = some [MemoryRelation.mk "a" "b" "refines" (9/10)] ∧
    mapLookup "a" (removeMemory exS2Rel "a" 1000000).relations = none := by
  decide

/-- Witness for C7 (amended): removing `a` from the two-record store deletes
its adjacency entry, leaves `b`'s lookups unchanged, and traversal only
returns table records. -/
theorem c7_witness :
    (mapLookup "a" exS2Rel.memories).isSome = true ∧
    (mapLookup "a" (removeMemory exS2Rel "a" 1000000).relations = none ∧
      (∀ k, k ≠ "a" →
        mapLookup k (removeMemory exS2Rel "a" 1000000).relations = mapLookup k exS2Rel.relations) ∧
      (∀ (start : String) (depth : ℤ), ∀ m ∈ findRelated exS2Rel start depth,
        ∃ i, mapLookup i exS2Rel.memories = some m)) :=
  ⟨by decide, c7_remove_relations exS2Rel "a" 1000000 (by decide)⟩

/-! ## C3: similarity search (corrected: descending, but not strictly on ties) -/

theorem heapPush_length (x : Memory × ℚ) :
    ∀ h : List (Memory × ℚ), (heapPush h x).length = h.length + 1 := by
  intro h
  induction h with
  | nil => rfl
  | cons y rest ih =>
    rw [heapPush]
    by_cases hx : x.2 < y.2
    · rw [if_pos hx]
      rfl
    · rw [if_neg hx, List.length_cons, List.length_cons, ih]

theorem heapPush_mem {x z : Memory × ℚ} :
    ∀ {h : List (Memory × ℚ)}, z ∈ heapPush h x → z = x ∨ z ∈ h := by
  intro h
  induction h with
  | nil =>
    intro hz
    rcases List.mem_singleton.1 hz with rfl
    exact Or.inl rfl
  | cons y rest ih =>
    intro hz
    rw [heapPush] at hz
    by_cases hx : x.2 < y.2
    · rw [if_pos hx] at hz
      rcases List.mem_cons.1 hz with rfl | hz'
      · exact Or.inl rfl
      · exact Or.inr hz'
    · rw [if_neg hx] at hz
      rcases List.mem_cons.1 hz with rfl | hz'
      · exact Or.inr (List.mem_cons_self ..)
      · rcases ih hz' with h' | h'
        · exact Or.inl h'
        · exact Or.inr (List.mem_cons_of_mem _ h')

theorem heapPush_chain (x : Memory × ℚ) :
    ∀ h : List (Memory × ℚ), h.Chain' (fun a b => a.2 ≤ b.2) →
      (heapPush h x).Chain' (fun a b => a.2 ≤ b.2) := by
  intro h
  induction h with
  | nil =>
    intro _
    simp [heapPush]
  | cons y rest ih =>
    intro hc
    rw [heapPush]
    by_cases hx : x.2 < y.2
    · rw [if_pos hx]
      exact List.Chain'.cons hx.le hc
    · rw [if_neg hx]
      rcases rest with _ | ⟨z, rest'⟩
      · simp [heapPush, not_lt.1 hx]
      · have hyz : y.2 ≤ z.2 := List.chain'_cons.1 hc |>.1
        have hc' := List.chain'_cons.1 hc |>.2
        have hih := ih hc'
        rw [heapPush] at hih ⊢
        by_cases hx' : x.2 < z.2
        · rw [if_pos hx'] at hih ⊢
          exact List.chain'_cons.2 ⟨not_lt.1 hx, hih⟩
        · rw [if_neg hx'] at hih ⊢
          exact List.chain'_cons.2 ⟨hyz, hih⟩

theorem simStep_none (ms : MemoryStore) (q : List ℚ) (limit : ℤ)
    (h : List (Memory × ℚ)) (entry : String × List ℚ)
    (hl : mapLookup entry.1 ms.memories = none) :
    simStep ms q limit h entry = h := by
  simp [simStep, hl]

theorem simStep_insert (ms : MemoryStore) (q : List ℚ) (limit : ℤ)
    (h : List (Memory × ℚ)) (entry : String × List ℚ) {mem : Memory}
    (hl : mapLookup entry.1 ms.memories = some mem) (hlen : (h.length : ℤ) < limit) :
    simStep ms q limit h entry = heapPush h (mem, dotProduct q entry.2) := by
  simp [simStep, hl, hlen]

theorem simStep_replace (ms : MemoryStore) (q : List ℚ) (limit : ℤ)
    (top : Memory × ℚ) (rest : List (Memory × ℚ)) (entry : String × List ℚ) {mem : Memory}
    (hl : mapLookup entry.1 ms.memories = some mem)
    (hlen : ¬ ((top :: rest).length : ℤ) < limit) (hs : dotProduct q entry.2 > top.2) :
    simStep ms q limit (top :: rest) entry = heapPush rest (mem, dotProduct q entry.2) := by
  simp only [simStep, hl]
  rw [if_neg hlen, if_pos hs]

theorem simStep_keep (ms : MemoryStore) (q : List ℚ) (limit : ℤ)
    (top : Memory × ℚ) (rest : List (Memory × ℚ)) (entry : String × List ℚ) {mem : Memory}
    (hl : mapLookup entry.1 ms.memories = some mem)
    (hlen : ¬ ((top :: rest).length : ℤ) < limit) (hs : ¬ dotProduct q entry.2 > top.2) :
    simStep ms q limit (top :: rest) entry = top :: rest := by
  simp only [simStep, hl]
  rw [if_neg hlen, if_neg hs]

theorem simStep_full_nil (ms : MemoryStore) (q : List ℚ) (limit : ℤ)
    (entry : String × List ℚ) {mem : Memory}
    (hl : mapLookup entry.1 ms.memories = some mem)
    (hlen : ¬ ((([] : List (Memory × ℚ)).length : ℤ) < limit)) :
    simStep ms q limit [] entry = [] := by
  simp only [simStep, hl]
  rw [if_neg hlen]

theorem simStep_chain (ms : MemoryStore) (q : List ℚ) (limit : ℤ)
    (h : List (Memory × ℚ)) (entry : String × List ℚ)
    (hc : h.Chain' (fun a b => a.2 ≤ b.2)) :
    (simStep ms q limit h entry).Chain' (fun a b => a.2 ≤ b.2) := by
  rcases hl : mapLookup entry.1 ms.memories with _ | mem
  · rw [simStep_none ms q limit h entry hl]
    exact hc
  · by_cases hlen : (h.length : ℤ) < limit
    · rw [simStep_insert ms q limit h entry hl hlen]
      exact heapPush_chain _ h hc
    · rcases h with _ | ⟨top, rest⟩
      · rw [simStep_full_nil ms q limit entry hl hlen]
        exact hc
      · by_cases hs : dotProduct q entry.2 > top.2
        · rw [simStep_replace ms q limit top rest entry hl hlen hs]
          exact heapPush_chain _ rest hc.tail
        · rw [simStep_keep ms q limit top rest entry hl hlen hs]
          exact hc

theorem simStep_scores (ms : MemoryStore) (q : List ℚ) (limit : ℤ)
    (h : List (Memory × ℚ)) (entry : String × List ℚ)
    (hentry : mapLookup entry.1 ms.embeddings = some entry.2)
    (hres : ∀ m, mapLookup entry.1 ms.memories = some m → m.id = entry.1)
    (hh : ∀ p ∈ h, p.2 = dotProduct q ((mapLookup p.1.id ms.embeddings).getD [])) :
    ∀ p ∈ simStep ms q limit h entry,
      p.2 = dotProduct q ((mapLookup p.1.id ms.embeddings).getD []) := by
  intro p hp
  rcases hl : mapLookup entry.1 ms.memories with _ | mem
  · rw [simStep_none ms q limit h entry hl] at hp
    exact hh p hp
  · have hmid : mem.id = entry.1 := hres mem hl
    have hnew : (mem, dotProduct q entry.2).2 =
        dotProduct q ((mapLookup (mem, dotProduct q entry.2).1.id ms.embeddings).getD []) := by
      simp only [hmid, hentry]
      rfl
    by_cases hlen : (h.length : ℤ) < limit
    · rw [simStep_insert ms q limit h entry hl hlen] at hp
      rcases heapPush_mem hp with rfl | hp'
      · exact hnew
      · exact hh p hp'
    · rcases h with _ | ⟨top, rest⟩
      · rw [simStep_full_nil ms q limit entry hl hlen] at hp
        exact hh p hp
      · by_cases hs : dotProduct q entry.2 > top.2
        · rw [simStep_replace ms q limit top rest entry hl hlen hs] at hp
          rcases heapPush_mem hp with rfl | hp'
          · exact hnew
          · exact hh p (List.mem_cons_of_mem _ hp')
        · rw [simStep_keep ms q limit top rest entry hl hlen hs] at hp
          exact hh p hp

theorem simFold_length (ms : MemoryStore) (q : List ℚ) (limit : ℤ) (hK : 1 ≤ limit) :
    ∀ (l : List (String × List ℚ)) (h : List (Memory × ℚ)), (h.length : ℤ) ≤ limit →
      ((l.foldl (simStep ms q limit) h).length : ℤ) =
        if ((h.length : ℤ) +
              ((l.filter (fun e => (mapLookup e.1 ms.memories).isSome)).length : ℤ)) ≤ limit then
          (h.length : ℤ) + ((l.filter (fun e => (mapLookup e.1 ms.memories).isSome)).length : ℤ)
        else limit := by
  intro l
  induction l with
  | nil =>
    intro h hlen
    simp only [List.foldl_nil, List.filter_nil, List.length_nil]
    rw [if_pos (by omega)]
    omega
  | cons e rest ih =>
    intro h hlen
    rw [List.foldl_cons]
    rcases hl : mapLookup e.1 ms.memories with _ | mem
    · have hfil : (e :: rest).filter (fun e => (mapLookup e.1 ms.memories).isSome) =
          rest.filter (fun e => (mapLookup e.1 ms.memories).isSome) := by
        rw [List.filter_cons]
        simp [hl]
      rw [simStep_none ms q limit h e hl, hfil]
      exact ih h hlen
    · have hfil : (e :: rest).filter (fun e => (mapLookup e.1 ms.memories).isSome) =
          e :: rest.filter (fun e => (mapLookup e.1 ms.memories).isSome) := by
        rw [List.filter_cons]
        simp [hl]
      rw [hfil]
      by_cases hlt : (h.length : ℤ) < limit
      · rw [simStep_insert ms q limit h e hl hlt]
        have hpush : ((heapPush h (mem, dotProduct q e.2)).length : ℤ) = (h.length : ℤ) + 1 := by
          rw [heapPush_length]
          push_cast
          ring
        rw [ih _ (by omega), hpush]
        simp only [List.length_cons]
        push_cast
        split_ifs <;> omega
      · rcases h with _ | ⟨top, hrest⟩
        · simp only [List.length_nil, Nat.cast_zero] at hlt
          omega
        · by_cases hs : dotProduct q e.2 > top.2
          · rw [simStep_replace ms q limit top hrest e hl hlt hs]
            have hpush : ((heapPush hrest (mem, dotProduct q e.2)).length : ℤ) =
                (hrest.length : ℤ) + 1 := by
              rw [heapPush_length]
              push_cast
              ring
            have hle : ((heapPush hrest (mem, dotProduct q e.2)).length : ℤ) ≤ limit := by
              rw [hpush]
              simp only [List.length_cons] at hlen
              push_cast at hlen
              omega
            rw [ih _ hle, hpush]
            simp only [List.length_cons] at hlen hlt ⊢
            push_cast
            push_cast at hlen hlt
            split_ifs <;> omega
          · rw [simStep_keep ms q limit top hrest e hl hlt hs]
            rw [ih _ hlen]
            simp only [List.length_cons] at hlen hlt ⊢
            push_cast
            push_cast at hlen hlt
            split_ifs <;> omega

theorem simFold_chain (ms : MemoryStore) (q : List ℚ) (limit : ℤ) :
    ∀ (l : List (String × List ℚ)) (h : List (Memory × ℚ)),
      h.Chain' (fun a b => a.2 ≤ b.2) →
      (l.foldl (simStep ms q limit) h).Chain' (fun a b => a.2 ≤ b.2) := by
  intro l
  induction l with
  | nil => exact fun h hc => hc
  | cons e rest ih =>
    intro h hc
    exact ih _ (simStep_chain ms q limit h e hc)

theorem simFold_scores (ms : MemoryStore) (q : List ℚ) (limit : ℤ) :
    ∀ (l : List (String × List ℚ)) (h : List (Memory × ℚ)),
      (∀ e ∈ l, mapLookup e.1 ms.embeddings = some e.2) →
      (∀ e ∈ l, ∀ m, mapLookup e.1 ms.memories = some m → m.id = e.1) →
      (∀ p ∈ h, p.2 = dotProduct q ((mapLookup p.1.id ms.embeddings).getD [])) →
      ∀ p ∈ l.foldl (simStep ms q limit) h,
        p.2 = dotProduct q ((mapLookup p.1.id ms.embeddings).getD []) := by
  intro l
  induction l with
  | nil => exact fun h _ _ hh => hh
  | cons e rest ih =>
    intro h hent hres hh
    refine ih _ (fun e' he' => hent e' (List.mem_cons_of_mem _ he'))
      (fun e' he' => hres e' (List.mem_cons_of_mem _ he')) ?_
    exact simStep_scores ms q limit h e (hent e (List.mem_cons_self ..))
      (hres e (List.mem_cons_self ..)) hh

/-- C3 amended: for a validated bound (`limit ≥ 1`) over a store whose
embedding index resolves in the table, the similarity result is ordered
descending (non-increasing) by cosine score — *strictly* descending only when
scores are distinct, since tied scores are returned adjacently — and its
length is `min(limit, number of records with an embedding)`; the result is
computed by the bounded min-oriented queue of `simStep`/`heapPush`. -/
theorem c3_findSimilar_order_length (ms : MemoryStore) (embedding : List ℚ) (limit : ℤ)
    (hK : 1 ≤ limit)
    (hres : ∀ e ∈ ms.embeddings, ∃ m, mapLookup e.1 ms.memories = some m ∧ m.id = e.1)
    (hnd : (mapKeys ms.embeddings).Nodup) :
    ((findSimilar ms embedding limit).map (simScore ms embedding)).Chain' (fun a b => b ≤ a) ∧
    (findSimilar ms embedding limit).length = min limit.toNat ms.embeddings.length := by
  have hent : ∀ e ∈ ms.embeddings, mapLookup e.1 ms.embeddings = some e.2 :=
    fun e he => mapLookup_eq_of_mem_nodup hnd he
  have hresall : ∀ e ∈ ms.embeddings, ∀ m, mapLookup e.1 ms.memories = some m → m.id = e.1 := by
    intro e he m hm
    obtain ⟨m', hm', hid'⟩ := hres e he
    rw [hm] at hm'
    injection hm' with h'
    subst h'
    exact hid'
  have hscores := simFold_scores ms (normalizeVector embedding) limit ms.embeddings [] hent
    hresall (by simp)
  have hchain := simFold_chain ms (normalizeVector embedding) limit ms.embeddings [] (by simp)
  constructor
  · rw [findSimilar, List.map_reverse, List.map_map, List.chain'_reverse]
    have hmapeq :
        (ms.embeddings.foldl (simStep ms (normalizeVector embedding) limit) []).map
            (simScore ms embedding ∘ Prod.fst) =
          (ms.embeddings.foldl (simStep ms (normalizeVector embedding) limit) []).map
            Prod.snd :=
      List.map_congr_left (fun p hp => (hscores p hp).symm)
    rw [hmapeq, List.chain'_map]
    exact hchain
  · have hfil : ms.embeddings.filter (fun e => (mapLookup e.1 ms.memories).isSome) =
        ms.embeddings := by
      apply List.filter_eq_self.2
      intro e he
      obtain ⟨m, hm, _⟩ := hres e he
      simp [hm]
    have hlen := simFold_length ms (normalizeVector embedding) limit hK ms.embeddings []
      (by
        simp only [List.length_nil, Nat.cast_zero]
        omega)
    rw [hfil] at hlen
    rw [findSimilar, List.length_reverse, List.length_map]
    rw [Nat.min_def]
    simp only [List.length_nil, Nat.cast_zero, zero_add] at hlen
    split_ifs at hlen ⊢ <;> omega

/-- C3 counterexample: two records with the identical stored embedding
`[1,0,0]` tie at score 1 for the query `[1,0,0]`, so the result's score list
is `[1, 1]` — descending but not *strictly* descending, refuting the claimed
strict ordering. -/
theorem c3_counterexample :
    (findSimilar exS2 [1, 0, 0] 2).map (simScore exS2 [1, 0, 0]) = [1, 1] ∧
    ¬ List.Chain' (fun a b : ℚ => a > b) [1, 1] := by
  refine ⟨by decide, fun hc => absurd (List.chain'_cons.1 hc).1 (lt_irrefl 1)⟩

/-- Witness for C3 (amended) on the two-record tied store with limit 2. -/
theorem c3_witness :
    ((1 : ℤ) ≤ 2 ∧
      (∀ e ∈ exS2.embeddings, ∃ m, mapLookup e.1 exS2.memories = some m ∧ m.id = e.1) ∧
      (mapKeys exS2.embeddings).Nodup) ∧
    (((findSimilar exS2 [1, 0, 0] 2).map (simScore exS2 [1, 0, 0])).Chain' (fun a b => b ≤ a) ∧
      (findSimilar exS2 [1, 0, 0] 2).length = min (2 : ℤ).toNat exS2.embeddings.length) :=
  ⟨⟨by decide, by decide, by decide⟩,
    c3_findSimilar_order_length exS2 [1, 0, 0] 2 (by decide) (by decide) (by decide)⟩

/-! ## C2: capacity invariant and minimum-importance eviction -/

theorem leastFold_spec :
    ∀ (l : List (String × Memory)) (a : String × Memory),
      ∃ p, l.foldl leastStep (some a) = some p ∧ (p = a ∨ p ∈ l) ∧
        p.2.importance ≤ a.2.importance ∧ ∀ q ∈ l, p.2.importance ≤ q.2.importance := by
  intro l
  induction l with
  | nil => exact fun a => ⟨a, rfl, Or.inl rfl, le_refl _, by simp⟩
  | cons e rest ih =>
    intro a
    rw [List.foldl_cons]
    by_cases he : e.2.importance < a.2.importance
    · have hstep : leastStep (some a) e = some e := by
        simp [leastStep, he]
      rw [hstep]
      obtain ⟨p, hfold, hor, hle, hall⟩ := ih e
      refine ⟨p, hfold, ?_, le_trans hle he.le, ?_⟩
      · rcases hor with rfl | h
        · exact Or.inr (List.mem_cons_self ..)
        · exact Or.inr (List.mem_cons_of_mem _ h)
      · intro q hq
        rcases List.mem_cons.1 hq with rfl | hq'
        · exact hle
        · exact hall q hq'
    · have hstep : leastStep (some a) e = some a := by
        simp [leastStep, he]
      rw [hstep]
      obtain ⟨p, hfold, hor, hle, hall⟩ := ih a
      refine ⟨p, hfold, ?_, hle, ?_⟩
      · rcases hor with rfl | h
        · exact Or.inl rfl
        · exact Or.inr (List.mem_cons_of_mem _ h)
      · intro q hq
        rcases List.mem_cons.1 hq with rfl | hq'
        · exact le_trans hle (not_lt.1 he)
        · exact hall q hq'

theorem leastImportantEntry_spec (ms : MemoryStore) (hne : ms.memories ≠ []) :
    ∃ p, leastImportantEntry ms = some p ∧ p ∈ ms.memories ∧
      ∀ q ∈ ms.memories, p.2.importance ≤ q.2.importance := by
  rcases hm : ms.memories with _ | ⟨a, rest⟩
  · exact absurd hm hne
  · obtain ⟨p, hfold, hor, hlea, hall⟩ := leastFold_spec rest a
    refine ⟨p, ?_, ?_, ?_⟩
    · rw [leastImportantEntry, hm, List.foldl_cons]
      exact hfold
    · rcases hor with rfl | h
      · exact List.mem_cons_self ..
      · exact List.mem_cons_of_mem _ h
    · intro q hq
      rcases List.mem_cons.1 hq with rfl | hq'
      · exact hlea
      · exact hall q hq'

theorem removeMemory_memories (ms : MemoryStore) (id : String) (now : ℤ) {mem : Memory}
    (hl : mapLookup id ms.memories = some mem) :
    (removeMemory ms id now).memories = mapErase id ms.memories := by
  rw [removeMemory.eq_def, hl]
  rfl

theorem removeMemory_max (ms : MemoryStore) (id : String) (now : ℤ) :
    (removeMemory ms id now).maxMemories = ms.maxMemories := by
  rw [removeMemory.eq_def]
  rcases mapLookup id ms.memories with _ | mem <;> rfl

theorem evict_max (ms : MemoryStore) (now : ℤ) :
    (evictLeastImportant ms now).maxMemories = ms.maxMemories := by
  rw [evictLeastImportant.eq_def]
  rcases leastImportantEntry ms with _ | l
  · rfl
  · show (if l.1 ≠ "" then removeMemory ms l.1 now else ms).maxMemories = ms.maxMemories
    by_cases h : l.1 ≠ ""
    · rw [if_pos h]
      exact removeMemory_max ms l.1 now
    · rw [if_neg h]

theorem store_max (ms : MemoryStore) (m : Memory) (now : ℤ) :
    (Store ms m now).1.maxMemories = ms.maxMemories := by
  rw [Store]
  by_cases h1 : m.id = ""
  · rw [if_pos h1]
  · rw [if_neg h1]
    by_cases h2 : m.content = ""
    · rw [if_pos h2]
    · rw [if_neg h2]
      by_cases h3 : m.importance < 0 ∨ m.importance > 1
      · rw [if_pos h3]
      · rw [if_neg h3]
        by_cases h4 : (mapLookup m.id ms.memories).isSome = true
        · rw [if_pos h4]
        · rw [if_neg h4]
          rcases m.embedding with _ | emb <;>
            by_cases hcap : (ms.memories.length : ℤ) ≥ ms.maxMemories <;>
              simp [hcap, addToTimeIndex, addToKeywordIndex, evict_max]

theorem store_success_memories (ms : MemoryStore) (m : Memory) (now : ℤ)
    (h1 : ¬ m.id = "") (h2 : ¬ m.content = "")
    (h3 : ¬ (m.importance < 0 ∨ m.importance > 1))
    (h4 : ¬ (mapLookup m.id ms.memories).isSome = true) :
    (Store ms m now).1.memories =
      mapSet m.id m (if (ms.memories.length : ℤ) ≥ ms.maxMemories then
        (evictLeastImportant ms now).memories else ms.memories) ∧
    (Store ms m now).2 = none := by
  rw [Store, if_neg h1, if_neg h2, if_neg h3, if_neg h4]
  rcases m.embedding with _ | emb <;>
    by_cases hcap : (ms.memories.length : ℤ) ≥ ms.maxMemories <;>
      simp [hcap, addToTimeIndex, addToKeywordIndex]

theorem store_success_conditions (ms : MemoryStore) (m : Memory) (now : ℤ)
    (hok : (Store ms m now).2 = none) :
    ¬ m.id = "" ∧ ¬ m.content = "" ∧ ¬ (m.importance < 0 ∨ m.importance > 1) ∧
      ¬ (mapLookup m.id ms.memories).isSome = true := by
  by_cases h1 : m.id = ""
  · rw [Store, if_pos h1] at hok
    simp at hok
  by_cases h2 : m.content = ""
  · rw [Store, if_neg h1, if_pos h2] at hok
    simp at hok
  by_cases h3 : m.importance < 0 ∨ m.importance > 1
  · rw [Store, if_neg h1, if_neg h2, if_pos h3] at hok
    simp at hok
  by_cases h4 : (mapLookup m.id ms.memories).isSome = true
  · rw [Store, if_neg h1, if_neg h2, if_neg h3, if_pos h4] at hok
    simp at hok
  exact ⟨h1, h2, h3, h4⟩

theorem evict_memories (ms : MemoryStore) (now : ℤ)
    (hnd : (mapKeys ms.memories).Nodup)
    (hne : ∀ p ∈ ms.memories, p.1 ≠ "")
    (hnonempty : ms.memories ≠ []) :
    ∃ p ∈ ms.memories, (∀ q ∈ ms.memories, p.2.importance ≤ q.2.importance) ∧
      (evictLeastImportant ms now).memories = mapErase p.1 ms.memories := by
  obtain ⟨p, hleast, hmem, hmin⟩ := leastImportantEntry_spec ms hnonempty
  refine ⟨p, hmem, hmin, ?_⟩
  rw [evictLeastImportant.eq_def, hleast]
  show (if p.1 ≠ "" then removeMemory ms p.1 now else ms).memories = mapErase p.1 ms.memories
  rw [if_pos (hne p hmem)]
  exact removeMemory_memories ms p.1 now (mapLookup_eq_of_mem_nodup hnd hmem)

theorem store_preserves_inv (ms : MemoryStore) (m : Memory) (now : ℤ)
    (hmax : 1 ≤ ms.maxMemories) (hinv : StoreInv ms) : StoreInv (Store ms m now).1 := by
  obtain ⟨hnd, hne, hlen⟩ := hinv
  by_cases h1 : m.id = ""
  · rw [Store, if_pos h1]
    exact ⟨hnd, hne, hlen⟩
  by_cases h2 : m.content = ""
  · rw [Store, if_neg h1, if_pos h2]
    exact ⟨hnd, hne, hlen⟩
  by_cases h3 : m.importance < 0 ∨ m.importance > 1
  · rw [Store, if_neg h1, if_neg h2, if_pos h3]
    exact ⟨hnd, hne, hlen⟩
  by_cases h4 : (mapLookup m.id ms.memories).isSome = true
  · rw [Store, if_neg h1, if_neg h2, if_neg h3, if_pos h4]
    exact ⟨hnd, hne, hlen⟩
  obtain ⟨hmem, -⟩ := store_success_memories ms m now h1 h2 h3 h4
  have hmaxeq := store_max ms m now
  have hdup : mapLookup m.id ms.memories = none := by
    rcases h : mapLookup m.id ms.memories with _ | v
    · rfl
    · rw [h] at h4
      simp at h4
  by_cases hcap : (ms.memories.length : ℤ) ≥ ms.maxMemories
  · rw [if_pos hcap] at hmem
    have hnonempty : ms.memories ≠ [] := by
      intro h0
      rw [h0] at hcap
      simp at hcap
      omega
    obtain ⟨p, hp, hmin, hevict⟩ := evict_memories ms now hnd hne hnonempty
    rw [hevict] at hmem
    have hnotin : mapLookup m.id (mapErase p.1 ms.memories) = none := by
      rw [mapLookup_eq_none_iff]
      intro hmemkeys
      exact (mapLookup_eq_none_iff.1 hdup) ((mapKeys_sublist_mapErase p.1 ms.memories).subset hmemkeys)
    rw [mapSet_of_lookup_none m hnotin] at hmem
    have hlkp : mapLookup p.1 ms.memories = some p.2 := mapLookup_eq_of_mem_nodup hnd hp
    have herlen : (mapErase p.1 ms.memories).length + 1 = ms.memories.length :=
      length_mapErase_of_lookup_some hnd hlkp
    refine ⟨?_, ?_, ?_⟩
    · rw [hmem, mapKeys, List.map_append]
      rw [List.nodup_append]
      refine ⟨(mapKeys_sublist_mapErase p.1 ms.memories).nodup hnd, by simp, ?_⟩
      intro x hx hy
      rcases List.mem_singleton.1 (by simpa using hy) with rfl
      exact (mapLookup_eq_none_iff.1 hdup) ((mapKeys_sublist_mapErase p.1 ms.memories).subset hx)
    · intro q hq
      rw [hmem] at hq
      rcases List.mem_append.1 hq with hq' | hq'
      · exact hne q (List.mem_of_mem_filter hq')
      · rcases List.mem_singleton.1 hq' with rfl
        exact h1
    · rw [hmem, hmaxeq, List.length_append]
      simp only [List.length_singleton]
      have : (ms.memories.length : ℤ) ≤ ms.maxMemories := hlen
      push_cast
      omega
  · rw [if_neg hcap] at hmem
    rw [mapSet_of_lookup_none m hdup] at hmem
    refine ⟨?_, ?_, ?_⟩
    · rw [hmem, mapKeys, List.map_append, List.nodup_append]
      refine ⟨hnd, by simp, ?_⟩
      intro x hx hy
      rcases List.mem_singleton.1 (by simpa using hy) with rfl
      exact (mapLookup_eq_none_iff.1 hdup) hx
    · intro q hq
      rw [hmem] at hq
      rcases List.mem_append.1 hq with hq' | hq'
      · exact hne q hq'
      · rcases List.mem_singleton.1 hq' with rfl
        exact h1
    · rw [hmem, hmaxeq, List.length_append]
      simp only [List.length_singleton]
      push_cast
      omega

theorem applyStores_inv :
    ∀ (ops : List (Memory × ℤ)) (ms : MemoryStore),
      1 ≤ ms.maxMemories → StoreInv ms →
      StoreInv (applyStores ms ops) ∧ (applyStores ms ops).maxMemories = ms.maxMemories := by
  intro ops
  induction ops with
  | nil => exact fun ms _ hinv => ⟨hinv, rfl⟩
  | cons op rest ih =>
    intro ms hmax hinv
    obtain ⟨m, now⟩ := op
    rw [applyStores]
    have hmax' : 1 ≤ (Store ms m now).1.maxMemories := by
      rw [store_max]
      exact hmax
    obtain ⟨hinv', heq⟩ := ih (Store ms m now).1 hmax' (store_preserves_inv ms m now hmax hinv)
    exact ⟨hinv', by rw [heq, store_max]⟩

/-- C2 amended: provided the configured maximum is at least 1 (the flag also
accepts 0, where the invariant fails), the table size never exceeds the
maximum over any sequence of stores from a fresh store; and whenever a store
succeeds while the table is at or above capacity, exactly one record of
globally minimum importance is evicted, the new table being the old one minus
that record plus the new one. -/
theorem c2_capacity_amended :
    (∀ max : ℤ, 1 ≤ max → ∀ ops : List (Memory × ℤ),
      ((applyStores (NewMemoryStore max) ops).memories.length : ℤ) ≤ max) ∧
    (∀ (ms : MemoryStore) (m : Memory) (now : ℤ),
      1 ≤ ms.maxMemories → StoreInv ms →
      (ms.memories.length : ℤ) ≥ ms.maxMemories → (Store ms m now).2 = none →
      ∃ p ∈ ms.memories, (∀ q ∈ ms.memories, p.2.importance ≤ q.2.importance) ∧
        (Store ms m now).1.memories = mapErase p.1 ms.memories ++ [(m.id, m)]) := by
  constructor
  · intro max hmax ops
    have hinv0 : StoreInv (NewMemoryStore max) := by
      refine ⟨by simp [NewMemoryStore, mapKeys], by simp [NewMemoryStore], ?_⟩
      simp [NewMemoryStore]
      omega
    obtain ⟨⟨-, -, hlen⟩, heq⟩ := applyStores_inv ops (NewMemoryStore max) hmax hinv0
    rw [heq] at hlen
    exact hlen
  · intro ms m now hmax hinv hcap hok
    obtain ⟨hnd, hne, hlen⟩ := hinv
    obtain ⟨h1, h2, h3, h4⟩ := store_success_conditions ms m now hok
    obtain ⟨hmem, -⟩ := store_success_memories ms m now h1 h2 h3 h4
    rw [if_pos hcap] at hmem
    have hnonempty : ms.memories ≠ [] := by
      intro h0
      rw [h0] at hcap
      simp at hcap
      omega
    obtain ⟨p, hp, hmin, hevict⟩ := evict_memories ms now hnd hne hnonempty
    rw [hevict] at hmem
    have hdup : mapLookup m.id ms.memories = none := by
      rcases h : mapLookup m.id ms.memories with _ | v
      · rfl
      · rw [h] at h4
        simp at h4
    have hnotin : mapLookup m.id (mapErase p.1 ms.memories) = none := by
      rw [mapLookup_eq_none_iff]
      intro hmemkeys
      exact (mapLookup_eq_none_iff.1 hdup) ((mapKeys_sublist_mapErase p.1 ms.memories).subset hmemkeys)
    rw [mapSet_of_lookup_none m hnotin] at hmem
    exact ⟨p, hp, hmin, hmem⟩

/-- C2 counterexample: with the configured maximum 0 (accepted by the flag), a
store succeeds — eviction on the empty table is a no-op — and the table size
becomes 1, exceeding the configured maximum. -/
theorem c2_counterexample :
    (Store (NewMemoryStore 0) plainMem 0).2 = none ∧
    ((Store (NewMemoryStore 0) plainMem 0).1.memories.length : ℤ) >
      (NewMemoryStore 0).maxMemories := by
  decide

/-- Witness for C2 (amended) at maximum 10 with one stored record. -/
theorem c2_witness :
    (1 : ℤ) ≤ 10 ∧
    ((applyStores (NewMemoryStore 10) [(plainMem, 0)]).memories.length : ℤ) ≤ 10 :=
  ⟨by decide, c2_capacity_amended.1 10 (by decide) [(plainMem, 0)]⟩

/-! ## C4: consolidation promotes and strengthens, with no clamp -/

theorem consolidateOne_none (ms : MemoryStore) (id : String)
    (hl : mapLookup id ms.memories = none) : consolidateOne ms id = ms := by
  simp [consolidateOne, hl]

theorem consolidateOne_skip (ms : MemoryStore) (id : String) {mem : Memory}
    (hl : mapLookup id ms.memories = some mem)
    (hc : ¬ (mem.accessCount > 3 ∨ mem.importance > 7/10)) : consolidateOne ms id = ms := by
  simp [consolidateOne, hl, hc]

theorem consolidateOne_promote_eq (ms : MemoryStore) (id : String) {mem : Memory}
    (hl : mapLookup id ms.memories = some mem)
    (hc : mem.accessCount > 3 ∨ mem.importance > 7/10) :
    consolidateOne ms id =
      { ms with
        memories := mapSet id { mem with type := LongTerm } ms.memories,
        typeIndex :=
          mapAdjust LongTerm (fun ids => insertIdOnce ids id)
            (mapAdjust ShortTerm (fun ids => ids.filter (fun i => i ≠ id)) ms.typeIndex),
        relations := mapAdjust id
          (List.map (fun rel => { rel with strength := rel.strength * (6/5) })) ms.relations } := by
  simp [consolidateOne, hl, hc]

theorem stNeLt : (ShortTerm : String) ≠ LongTerm := by decide

theorem consolidateOne_preserve (ms : MemoryStore) (id' id : String) (hne : id' ≠ id) :
    mapLookup id (consolidateOne ms id').memories = mapLookup id ms.memories ∧
    mapLookup id (consolidateOne ms id').relations = mapLookup id ms.relations ∧
    (mapLookup LongTerm (consolidateOne ms id').typeIndex).isSome =
      (mapLookup LongTerm ms.typeIndex).isSome ∧
    (id ∈ (mapLookup LongTerm ms.typeIndex).getD [] →
      id ∈ (mapLookup LongTerm (consolidateOne ms id').typeIndex).getD []) ∧
    (id ∉ (mapLookup ShortTerm ms.typeIndex).getD [] →
      id ∉ (mapLookup ShortTerm (consolidateOne ms id').typeIndex).getD []) := by
  rcases hl : mapLookup id' ms.memories with _ | mem
  · rw [consolidateOne_none ms id' hl]
    exact ⟨rfl, rfl, rfl, fun h => h, fun h => h⟩
  · by_cases hc : mem.accessCount > 3 ∨ mem.importance > 7/10
    · rw [consolidateOne_promote_eq ms id' hl hc]
      refine ⟨mapLookup_mapSet_ne _ _ hne, mapLookup_mapAdjust_ne _ _ hne, ?_, ?_, ?_⟩
      · rw [mapLookup_mapAdjust_self, mapLookup_mapAdjust_ne _ _ stNeLt]
        rcases mapLookup LongTerm ms.typeIndex with _ | ids <;> rfl
      · intro h
        rw [mapLookup_mapAdjust_self, mapLookup_mapAdjust_ne _ _ stNeLt]
        rcases hlk : mapLookup LongTerm ms.typeIndex with _ | ids
        · rw [hlk] at h
          simp at h
        · rw [hlk] at h
          simp only [Option.getD_some] at h
          simp only [Option.map_some', Option.getD_some]
          exact mem_insertIdOnce.2 (Or.inl h)
      · intro h hmem'
        rw [mapLookup_mapAdjust_ne _ _ (Ne.symm stNeLt), mapLookup_mapAdjust_self] at hmem'
        rcases hlk : mapLookup ShortTerm ms.typeIndex with _ | ids
        · rw [hlk] at hmem'
          simp at hmem'
        · rw [hlk] at hmem'
          simp only [Option.map_some', Option.getD_some] at hmem'
          rw [hlk] at h
          simp only [Option.getD_some] at h
          exact h (List.mem_of_mem_filter hmem')
    · rw [consolidateOne_skip ms id' hl hc]
      exact ⟨rfl, rfl, rfl, fun h => h, fun h => h⟩

theorem consolidateFold_preserve (ms : MemoryStore) (id : String) :
    ∀ l : List String, id ∉ l →
      mapLookup id (l.foldl consolidateOne ms).memories = mapLookup id ms.memories ∧
      mapLookup id (l.foldl consolidateOne ms).relations = mapLookup id ms.relations ∧
      (mapLookup LongTerm (l.foldl consolidateOne ms).typeIndex).isSome =
        (mapLookup LongTerm ms.typeIndex).isSome ∧
      (id ∈ (mapLookup LongTerm ms.typeIndex).getD [] →
        id ∈ (mapLookup LongTerm (l.foldl consolidateOne ms).typeIndex).getD []) ∧
      (id ∉ (mapLookup ShortTerm ms.typeIndex).getD [] →
        id ∉ (mapLookup ShortTerm (l.foldl consolidateOne ms).typeIndex).getD []) := by
  intro l
  induction l generalizing ms with
  | nil => exact fun _ => ⟨rfl, rfl, rfl, fun h => h, fun h => h⟩
  | cons id' rest ih =>
    intro hnotin
    have hne : id' ≠ id := fun hcon => hnotin (List.mem_cons.2 (Or.inl hcon.symm))
    have hrest : id ∉ rest := fun hcon => hnotin (List.mem_cons_of_mem _ hcon)
    obtain ⟨hm1, hr1, hs1, hlt1, hst1⟩ := consolidateOne_preserve ms id' id hne
    obtain ⟨hm2, hr2, hs2, hlt2, hst2⟩ := ih (consolidateOne ms id') hrest
    rw [List.foldl_cons]
    exact ⟨hm2.trans hm1, hr2.trans hr1, hs2.trans hs1,
      fun h => hlt2 (hlt1 h), fun h => hst2 (hst1 h)⟩

theorem consolidateOne_promotes (ms : MemoryStore) (id : String) {mem : Memory}
    (hmem : mapLookup id ms.memories = some mem)
    (hcond : mem.accessCount > 3 ∨ mem.importance > 7/10)
    (hlt : (mapLookup LongTerm ms.typeIndex).isSome = true) :
    mapLookup id (consolidateOne ms id).memories = some { mem with type := LongTerm } ∧
    mapLookup id (consolidateOne ms id).relations =
      (mapLookup id ms.relations).map
        (List.map (fun rel => { rel with strength := rel.strength * (6/5) })) ∧
    id ∈ (mapLookup LongTerm (consolidateOne ms id).typeIndex).getD [] ∧
    id ∉ (mapLookup ShortTerm (consolidateOne ms id).typeIndex).getD [] := by
  rw [consolidateOne_promote_eq ms id hmem hcond]
  refine ⟨mapLookup_mapSet_self .., mapLookup_mapAdjust_self .., ?_, ?_⟩
  · rw [mapLookup_mapAdjust_self, mapLookup_mapAdjust_ne _ _ stNeLt]
    rcases hlk : mapLookup LongTerm ms.typeIndex with _ | ids
    · rw [hlk] at hlt
      simp at hlt
    · simp only [Option.map_some', Option.getD_some]
      exact mem_insertIdOnce.2 (Or.inr rfl)
  · intro hmem'
    rw [mapLookup_mapAdjust_ne _ _ (Ne.symm stNeLt), mapLookup_mapAdjust_self] at hmem'
    rcases hlk : mapLookup ShortTerm ms.typeIndex with _ | ids
    · rw [hlk] at hmem'
      simp at hmem'
    · rw [hlk] at hmem'
      simp only [Option.map_some', Option.getD_some] at hmem'
      rcases List.mem_filter.1 hmem' with ⟨-, hne⟩
      simp at hne

/-- C4: after one consolidation pass, every record that was in the short-term
index set with `accessCount > 3` or `importance > 0.7` has type `long_term`
in the table, has moved from the short-term to the long-term index set, and
each of its outgoing relation edges has its strength multiplied by exactly
1.2 with no upper clamp — so a pass can drive strength above 1, where it then
stays over repeated passes. -/
theorem c4_consolidation (ms : MemoryStore) (id : String) (mem : Memory)
    (hst : id ∈ (mapLookup ShortTerm ms.typeIndex).getD [])
    (hnodup : ((mapLookup ShortTerm ms.typeIndex).getD []).Nodup)
    (hmem : mapLookup id ms.memories = some mem)
    (hcond : mem.accessCount > 3 ∨ mem.importance > 7/10)
    (hlt : (mapLookup LongTerm ms.typeIndex).isSome = true) :
    (mapLookup id (consolidateMemories ms).memories = some { mem with type := LongTerm } ∧
      id ∈ (mapLookup LongTerm (consolidateMemories ms).typeIndex).getD [] ∧
      id ∉ (mapLookup ShortTerm (consolidateMemories ms).typeIndex).getD [] ∧
      mapLookup id (consolidateMemories ms).relations =
        (mapLookup id ms.relations).map
          (List.map (fun rel => { rel with strength := rel.strength * (6/5) }))) ∧
    (∃ (s : MemoryStore) (rels : List MemoryRelation),
      mapLookup "a" (consolidateMemories s).relations = some rels ∧
      ∃ r ∈ rels, r.strength > 1) := by
  constructor
  · obtain ⟨l₁, l₂, hsplit⟩ := List.mem_iff_append.1 hst
    rw [consolidateMemories, hsplit]
    have hnd : (l₁ ++ id :: l₂).Nodup := hsplit ▸ hnodup
    rw [List.nodup_append] at hnd
    obtain ⟨hnd1, hnd2, hdisj⟩ := hnd
    have hid1 : id ∉ l₁ := fun h => hdisj h (List.mem_cons_self ..)
    have hid2 : id ∉ l₂ := (List.nodup_cons.1 hnd2).1
    rw [List.foldl_append, List.foldl_cons]
    obtain ⟨pm1, pr1, ps1, -, -⟩ := consolidateFold_preserve ms id l₁ hid1
    have hmem1 : mapLookup id (l₁.foldl consolidateOne ms).memories = some mem :=
      pm1.trans hmem
    have hlt1 : (mapLookup LongTerm (l₁.foldl consolidateOne ms).typeIndex).isSome = true :=
      ps1.trans hlt
    obtain ⟨qm, qr, qlt, qst⟩ :=
      consolidateOne_promotes (l₁.foldl consolidateOne ms) id hmem1 hcond hlt1
    obtain ⟨rm, rr, -, rlt, rst⟩ :=
      consolidateFold_preserve (consolidateOne (l₁.foldl consolidateOne ms) id) id l₂ hid2
    refine ⟨rm.trans qm, rlt qlt, rst qst, ?_⟩
    rw [rr, qr, pr1]
  · refine ⟨exS2RelHot, [MemoryRelation.mk "a" "b" "refines" (27/25)], by decide,
      MemoryRelation.mk "a" "b" "refines" (27/25), by decide, by decide⟩

/-- Witness for C4: in the two-record store with the edge `a → b` of strength
0.9 and `a` hot (`accessCount = 5`), one consolidation pass makes `a`
long-term, moves it between the index sets, and multiplies the edge strength
by 1.2 to 1.08 — above 1, unclamped. -/
theorem c4_witness :
    ("a" ∈ (mapLookup ShortTerm exS2RelHot.typeIndex).getD [] ∧
      ((mapLookup ShortTerm exS2RelHot.typeIndex).getD []).Nodup ∧
      mapLookup "a" exS2RelHot.memories = some { exMem with accessCount := 5 } ∧
      ({ exMem with accessCount := 5 } : Memory).accessCount > 3 ∧
      (mapLookup LongTerm exS2RelHot.typeIndex).isSome = true) ∧
    (mapLookup "a" (consolidateMemories exS2RelHot).memories =
        some { { exMem with accessCount := 5 } with type := LongTerm } ∧
      "a" ∈ (mapLookup LongTerm (consolidateMemories exS2RelHot).typeIndex).getD [] ∧
      "a" ∉ (mapLookup ShortTerm (consolidateMemories exS2RelHot).typeIndex).getD [] ∧
      mapLookup "a" (consolidateMemories exS2RelHot).relations =
        (mapLookup "a" exS2RelHot.relations).map
          (List.map (fun rel => { rel with strength := rel.strength * (6/5) }))) :=
  ⟨⟨by decide, by decide, by decide, by decide, by decide⟩,
    (c4_consolidation exS2RelHot "a" { exMem with accessCount := 5 }
      (by decide) (by decide) (by decide) (Or.inl (by decide)) (by decide)).1⟩

end MCPMemory
